import Mathlib

/-!
# Account ledger of the coin module (`modules/coin/store.go`)

A shallow embedding of the `Accountant` of `modules/coin/store.go`: key
derivation, `loadAccount` / `storeAccount`, the shared `updateCoins`
algorithm and the two entry points `CheckCoins` and `ChangeCoins`.

Conventions of the embedding.

* A Go `[]byte` is a list of natural numbers (`Bytes`); no arithmetic is ever
  done on bytes by the embedded code.
* A Go `int` is an `Int`; the only arithmetic the code does on an `int`
  (`acct.Sequence+1`, `acct.Sequence++`) goes through `intAdd`, which wraps
  like the 64-bit two's-complement `int` of Go.
* A Go `string` is a `String`, and `[]byte(s)` is its UTF-8 encoding
  (`stringBytes`).
* A Go `error` is an `Option CoinError` (`none` is `nil`).
* The store is threaded explicitly: every function that receives the store
  returns the store it leaves behind, in the `store` field of `Ret`.
* The binary codec (`go-wire`) is an external library: it is a parameter
  (`Codec`) of every function that encodes or decodes a record. Its contract
  enters a theorem as a hypothesis where the theorem needs it: the codec
  round-trips (`RoundTrips`), and it does not encode a record as the empty
  byte string, which the store reserves for "not found" (`NonEmpty`, or the
  weaker `EmptyOnlyForZero`).
-/

namespace CoinStore

/-! ## Bytes and machine integers -/

/-- Go `[]byte`. -/
abbrev Bytes := List Nat

/-- Two's-complement wrap of an integer into the range of a 64-bit Go `int`. -/
def wrapInt (z : Int) : Int := (z + 2 ^ 63) % 2 ^ 64 - 2 ^ 63

/-- Go `x + y` on `int`. -/
def intAdd (x y : Int) : Int := wrapInt (x + y)

/-- Largest value of a 64-bit Go `int`. -/
def maxInt : Int := 2 ^ 63 - 1

/-- Smallest value of a 64-bit Go `int`. -/
def minInt : Int := -(2 ^ 63)

/-- The values a 64-bit Go `int` can hold. -/
def IsInt (z : Int) : Prop := minInt ≤ z ∧ z ≤ maxInt

instance (z : Int) : Decidable (IsInt z) := by
  unfold IsInt; exact inferInstance

/-! ## Coins -/

/-- Modelled from the spec: `types.Coin` is not among the sources; one
(denomination, amount) pair, the denomination a string and the amount a signed
integer quantity. -/
structure Coin where
  Denom : String
  Amount : Int
deriving DecidableEq

/-- Modelled from the spec: `types.Coins` is not among the sources; an ordered
collection of (denomination, amount) pairs. -/
abbrev Coins := List Coin

/-- Modelled from the spec: the lookup of `types.Coins` is not among the
sources; the amount of denomination `d` in a collection, `0` if absent. -/
def amountOf : Coins → String → Int
  | [], _ => 0
  | c :: rest, d => if c.Denom = d then c.Amount else amountOf rest d

/-- Modelled from the spec: the ordering of `types.Coins` is not among the
sources; insert a denomination into an ordered list of distinct denominations,
which are compared lexicographically, character by character. -/
def insertDenom (d : String) : List String → List String
  | [] => [d]
  | x :: xs =>
    if d.data < x.data then d :: x :: xs
    else if d = x then x :: xs
    else x :: insertDenom d xs

/-- Modelled from the spec: the union of the denominations of two collections
(union of keys), in order. -/
def denoms (a b : Coins) : List String :=
  ((a ++ b).map Coin.Denom).foldr insertDenom []

/-- Modelled from the spec: `Coins.Plus` is not among the sources; the
componentwise merge of section 9 and step 4 of the core algorithm: for each
denomination appearing in either collection (union of keys), the sum of the
two amounts, a missing entry counting as zero. -/
def Plus (a b : Coins) : Coins :=
  (denoms a b).map (fun d => { Denom := d, Amount := amountOf a d + amountOf b d })

/-- Modelled from the spec: `Coins.IsPositive` is not among the sources;
positive iff the collection is non-empty and every amount is `> 0`. -/
def IsPositive (c : Coins) : Bool :=
  !c.isEmpty && c.all (fun x => decide (0 < x.Amount))

/-- Modelled from the spec: `Coins.IsNonnegative` is not among the sources;
nonnegative iff every amount is `≥ 0` (the empty collection included). -/
def IsNonnegative (c : Coins) : Bool :=
  c.all (fun x => decide (0 ≤ x.Amount))

/-! ## Errors -/

/-- Modelled from the spec: the error constructors `ErrNoAccount`,
`ErrInvalidSequence`, `ErrInsufficientFunds` and `errors.ErrInternal` are not
among the sources; a closed tagged-error type with the four kinds of section 7,
`Internal` carrying its message. -/
inductive CoinError where
  | NoAccount
  | InvalidSequence
  | InsufficientFunds
  | Internal (msg : String)
deriving DecidableEq

/-- Modelled from the spec: `IsNoAccountErr` is not among the sources; whether
the error is the `NoAccount` signal. -/
def IsNoAccountErr (err : Option CoinError) : Bool :=
  decide (err = some CoinError.NoAccount)

/-! ## Store, address, record, codec -/

/-- Modelled from the spec: `state.KVStore` is not among the sources; a
synchronous byte-key to byte-value storage, the empty value meaning that the
key is not found. -/
abbrev KVStore := Bytes → Bytes

/-- The store contract `get(key) → bytes`: the value and the store, which a
read leaves as it is. -/
def KVStore.Get (s : KVStore) (key : Bytes) : Bytes × KVStore := (s key, s)

/-- The store contract `set(key, value)`. -/
def KVStore.Set (s : KVStore) (key value : Bytes) : KVStore :=
  fun k => if k = key then value else s k

/-- The store with no key. -/
def emptyStore : KVStore := fun _ => []

/-- Modelled from the spec: `basecoin.Actor` is not among the sources; an opaque
byte identifier, of which the ledger only uses the serialisation `Bytes()`. -/
structure Actor where
  Bytes : Bytes
deriving DecidableEq

/-- Go `Account`, the coin account structure. -/
structure Account where
  Coins : Coins
  Sequence : Int
deriving DecidableEq

/-- The zero value of `Account` (what `acct Account` holds before any write). -/
def zeroAccount : Account := { Coins := [], Sequence := 0 }

/-- The binary codec of `go-wire`, an external library. `BinaryBytes` encodes a
record; `ReadBinaryBytes data` is `wire.ReadBinaryBytes(data, &acct)` on a
zero-valued `acct`: what `acct` holds afterwards, and whether `err == nil`. -/
structure Codec where
  BinaryBytes : Account → Bytes
  ReadBinaryBytes : Bytes → Account × Bool

/-- What a Go function of the ledger leaves behind: the value it returns, the
error it returns, and the store after the call. -/
structure Ret (α : Type) where
  val : α
  err : Option CoinError
  store : KVStore

/-- Go `Accountant`. -/
structure Accountant where
  Prefix : Bytes
deriving DecidableEq

/-! ## The ledger -/

/-- An upper-case hexadecimal digit. -/
def hexDigit (n : Nat) : Char :=
  ['0', '1', '2', '3', '4', '5', '6', '7', '8', '9', 'A', 'B', 'C', 'D', 'E', 'F'].getD n '0'

/-- Go `fmt.Sprintf("%X", key)`. -/
def hexUpper (key : Bytes) : String :=
  String.mk (key.flatMap (fun b => [hexDigit (b / 16 % 16), hexDigit (b % 16)]))

/-- Go `Accountant.MakeKey`: generate key bytes from address using the
accountant prefix. -/
def Accountant.MakeKey (a : Accountant) (addr : Actor) : Bytes :=
  let key := addr.Bytes
  if a.Prefix.length > 0 then a.Prefix ++ key else key

/-- Go `loadAccount`. -/
def loadAccount (cdc : Codec) (store : KVStore) (key : Bytes) : Ret Account :=
  let (data, store) := store.Get key
  if data.length = 0 then
    { val := zeroAccount, err := some CoinError.NoAccount, store := store }
  else
    match cdc.ReadBinaryBytes data with
    | (acct, false) =>
      { val := acct
        err := some (CoinError.Internal ("Error reading account " ++ hexUpper key))
        store := store }
    | (acct, true) => { val := acct, err := none, store := store }

/-- Go `storeAccount`; it always returns `nil`. -/
def storeAccount (cdc : Codec) (store : KVStore) (key : Bytes) (acct : Account) : Ret Unit :=
  let bin := cdc.BinaryBytes acct
  { val := (), err := none, store := store.Set key bin }

/-- Go `Accountant.GetAccount`: for empty accounts, no error but an empty
account. -/
def Accountant.GetAccount (cdc : Codec) (a : Accountant) (store : KVStore) (addr : Actor) :
    Ret Account :=
  let r := loadAccount cdc store (a.MakeKey addr)
  let err := if IsNoAccountErr r.err then none else r.err
  { val := r.val, err := err, store := r.store }

/-- Lines 79 to 86 of `updateCoins` (`// check amount`). -/
def checkAmount (acct : Account) (coins : Coins) (store : KVStore) : Ret Account :=
  let final := Plus acct.Coins coins
  if !IsNonnegative final then
    { val := acct, err := some CoinError.InsufficientFunds, store := store }
  else
    { val := { acct with Coins := final }, err := none, store := store }

/-- Go `Accountant.updateCoins`: load the account, make all checks, and return
the updated account. -/
def Accountant.updateCoins (cdc : Codec) (a : Accountant) (store : KVStore) (addr : Actor)
    (coins : Coins) (seq : Int) : Ret Account :=
  let r := loadAccount cdc store (a.MakeKey addr)
  let acct := r.val
  let store := r.store
  -- we can increase an empty account...
  let err := if IsNoAccountErr r.err && IsPositive coins then none else r.err
  if err ≠ none then
    { val := acct, err := err, store := store }
  else
    -- check sequence if we are deducting
    if !IsPositive coins then
      if seq ≠ intAdd acct.Sequence 1 then
        { val := acct, err := some CoinError.InvalidSequence, store := store }
      else
        checkAmount { acct with Sequence := intAdd acct.Sequence 1 } coins store
    else
      checkAmount acct coins store

/-- Go `Accountant.CheckCoins`: makes sure there are funds, but doesn't change
anything. -/
def Accountant.CheckCoins (cdc : Codec) (a : Accountant) (store : KVStore) (addr : Actor)
    (coins : Coins) (seq : Int) : Ret Coins :=
  let r := a.updateCoins cdc store addr coins seq
  { val := r.val.Coins, err := r.err, store := r.store }

/-- Go `Accountant.ChangeCoins`: changes the money, returns error if it would
be negative. -/
def Accountant.ChangeCoins (cdc : Codec) (a : Accountant) (store : KVStore) (addr : Actor)
    (coins : Coins) (seq : Int) : Ret Coins :=
  let r := a.updateCoins cdc store addr coins seq
  if r.err ≠ none then
    { val := r.val.Coins, err := r.err, store := r.store }
  else
    let w := storeAccount cdc r.store (a.MakeKey addr) r.val
    { val := r.val.Coins, err := w.err, store := w.store }

/-- Go `[]byte(s)`: the UTF-8 bytes of a string. -/
def stringBytes (s : String) : Bytes :=
  (s.data.flatMap String.utf8EncodeChar).map UInt8.toNat

/-- Go `NewAccountant`: create the new accountant with prefix information. The
constant `NameCoin` is declared outside the sources and is a parameter. -/
def NewAccountant (NameCoin : String) (pfx : String) : Accountant :=
  let pfx := if pfx = "" then NameCoin else pfx
  { Prefix := stringBytes (pfx ++ "/") }

/-! ## Sample inputs -/

/-- The accountant whose prefix is the bytes of `coin/`. -/
def coinAccountant : Accountant := { Prefix := [99, 111, 105, 110, 47] }

/-- A sample address. -/
def alice : Actor := { Bytes := [1, 2, 3] }

/-- A store holding one record, at the key of `addr` under accountant `a`. -/
def storeWith (cdc : Codec) (a : Accountant) (addr : Actor) (acct : Account) : KVStore :=
  emptyStore.Set (a.MakeKey addr) (cdc.BinaryBytes acct)

/-! ## A sample wire format

The codec is a parameter of the ledger. To instantiate the theorems at
concrete inputs, `sampleCodec` is a small self-delimiting binary format: a
natural number `n` is `n` bytes `1` followed by a byte `0`, an integer is a
sign byte followed by its absolute value, a string or a list is its length
followed by its elements. -/

/-- A natural number in unary, closed by a `0` byte. -/
def encNat : Nat → Bytes
  | 0 => [0]
  | n + 1 => 1 :: encNat n

/-- Read back a natural number and the bytes that follow it. -/
def decNat : Bytes → Option (Nat × Bytes)
  | [] => none
  | 0 :: rest => some (0, rest)
  | _ :: rest =>
    match decNat rest with
    | some (n, r) => some (n + 1, r)
    | none => none

/-- An integer: a sign byte, then the absolute value. -/
def encInt (z : Int) : Bytes := (if z < 0 then 1 else 0) :: encNat z.natAbs

/-- Read back an integer and the bytes that follow it. -/
def decInt : Bytes → Option (Int × Bytes)
  | [] => none
  | s :: rest =>
    match decNat rest with
    | some (n, r) => some (if s = 0 then (n : Int) else -(n : Int), r)
    | none => none

/-- The characters of a string, one code point after the other. -/
def encChars : List Char → Bytes
  | [] => []
  | c :: cs => encNat c.toNat ++ encChars cs

/-- Read back `n` characters. -/
def decChars : Nat → Bytes → Option (List Char × Bytes)
  | 0, b => some ([], b)
  | n + 1, b =>
    match decNat b with
    | none => none
    | some (c, r) =>
      match decChars n r with
      | none => none
      | some (cs, r2) => some (Char.ofNat c :: cs, r2)

/-- A string: its length, then its characters. -/
def encString (s : String) : Bytes := encNat s.data.length ++ encChars s.data

/-- Read back a string and the bytes that follow it. -/
def decString (b : Bytes) : Option (String × Bytes) :=
  match decNat b with
  | none => none
  | some (n, r) =>
    match decChars n r with
    | none => none
    | some (cs, r2) => some (String.mk cs, r2)

/-- One coin: denomination, then amount. -/
def encCoin (c : Coin) : Bytes := encString c.Denom ++ encInt c.Amount

/-- Read back one coin. -/
def decCoin (b : Bytes) : Option (Coin × Bytes) :=
  match decString b with
  | none => none
  | some (d, r) =>
    match decInt r with
    | none => none
    | some (z, r2) => some ({ Denom := d, Amount := z }, r2)

/-- The coins of a collection, one after the other. -/
def encCoinList : Coins → Bytes
  | [] => []
  | c :: cs => encCoin c ++ encCoinList cs

/-- Read back `n` coins. -/
def decCoinList : Nat → Bytes → Option (Coins × Bytes)
  | 0, b => some ([], b)
  | n + 1, b =>
    match decCoin b with
    | none => none
    | some (c, r) =>
      match decCoinList n r with
      | none => none
      | some (cs, r2) => some (c :: cs, r2)

/-- A record: the number of coins, the coins, the sequence. -/
def encAccount (acct : Account) : Bytes :=
  encNat acct.Coins.length ++ encCoinList acct.Coins ++ encInt acct.Sequence

/-- Read back a record. -/
def decAccount (b : Bytes) : Option Account :=
  match decNat b with
  | none => none
  | some (n, r) =>
    match decCoinList n r with
    | none => none
    | some (cs, r2) =>
      match decInt r2 with
      | none => none
      | some (z, _) => some { Coins := cs, Sequence := z }

/-- The sample codec. -/
def sampleCodec : Codec where
  BinaryBytes := encAccount
  ReadBinaryBytes := fun b =>
    match decAccount b with
    | some acct => (acct, true)
    | none => (zeroAccount, false)

/-- The codec round-trips: decoding the encoding of a record gives it back. -/
def Codec.RoundTrips (cdc : Codec) : Prop :=
  ∀ acct : Account, cdc.ReadBinaryBytes (cdc.BinaryBytes acct) = (acct, true)

/-- The codec never encodes a record as the empty byte string, which the store
contract reserves for "not found". -/
def Codec.NonEmpty (cdc : Codec) : Prop :=
  ∀ acct : Account, cdc.BinaryBytes acct ≠ []

/-- The record of the examples of the specification: 70 atoms, sequence 1. -/
def acct70 : Account := { Coins := [⟨"atom", 70⟩], Sequence := 1 }

/-- The store that holds `acct70` at the key of `alice`. -/
def store70 : KVStore := storeWith sampleCodec coinAccountant alice acct70

/-- A record whose sequence is the largest `int`. -/
def acctMax : Account := { Coins := [], Sequence := maxInt }

/-- The store that holds `acctMax` at the key of `alice`. -/
def storeMax : KVStore := storeWith sampleCodec coinAccountant alice acctMax

/-- The codec encodes no record other than the zero-value record as the empty
byte string. -/
def Codec.EmptyOnlyForZero (cdc : Codec) : Prop :=
  ∀ acct : Account, cdc.BinaryBytes acct = [] → acct = zeroAccount

/-- The record of 100 atoms with sequence 0. -/
def acct100 : Account := { Coins := [⟨"atom", 100⟩], Sequence := 0 }

/-- Every decodable record of the store has only amounts `≥ 0`. -/
def NonnegativeRecords (cdc : Codec) (store : KVStore) : Prop :=
  ∀ (key : Bytes) (acct : Account), store key ≠ [] →
    cdc.ReadBinaryBytes (store key) = (acct, true) → ∀ c ∈ acct.Coins, 0 ≤ c.Amount

/-- The stores reachable from the empty store by `ChangeCoins` calls, with any
accountant, address, delta and claimed sequence. -/
inductive Reachable (cdc : Codec) : KVStore → Prop where
  | empty : Reachable cdc emptyStore
  | step (store : KVStore) (a : Accountant) (addr : Actor) (coins : Coins) (seq : Int) :
      Reachable cdc store → Reachable cdc (a.ChangeCoins cdc store addr coins seq).store

/-- The store that holds `acct100` at the key of `alice`. -/
def store100 : KVStore := storeWith sampleCodec coinAccountant alice acct100

/-- An address of six bytes: 1, 2, `/`, 0, 0, 0 (read as fields behind their
lengths: the field `/`, 0 and two empty fields). -/
def addrField3 : Actor := { Bytes := [1, 2, 47, 0, 0, 0] }

/-- The address of three bytes 0, 0, 0 (three empty fields behind their
lengths). -/
def addrEmpty3 : Actor := { Bytes := [0, 0, 0] }

/-- An address of five bytes: 1, 2, `/`, 0, 0 (the field `/`, 0 and one empty
field behind their lengths). -/
def addrField2 : Actor := { Bytes := [1, 2, 47, 0, 0] }

/-- The address of two bytes 0, 0 (two empty fields behind their lengths). -/
def addrEmpty2 : Actor := { Bytes := [0, 0] }

/-- One `ChangeCoins` call of a history: the address, the delta and the claimed
sequence. -/
structure Call where
  addr : Actor
  coins : Coins
  seq : Int

/-- The claimed sequence numbers of the accepted non-credit calls on the address
`x`, in order, when the calls of a history are made one after the other through
the accountant `a`, each on the store left by the one before. -/
def acceptedDebits (cdc : Codec) (a : Accountant) (x : Actor) : KVStore → List Call → List Int
  | _, [] => []
  | store, c :: cs =>
    if c.addr = x ∧ IsPositive c.coins = false ∧
        (a.ChangeCoins cdc store c.addr c.coins c.seq).err = none then
      c.seq :: acceptedDebits cdc a x (a.ChangeCoins cdc store c.addr c.coins c.seq).store cs
    else
      acceptedDebits cdc a x (a.ChangeCoins cdc store c.addr c.coins c.seq).store cs

/-- A record without coins whose sequence is one below the largest `int`. -/
def acctNearMax : Account := { Coins := [], Sequence := maxInt - 1 }

/-- The store that holds `acctNearMax` at the key of `alice`. -/
def storeNearMax : KVStore := storeWith sampleCodec coinAccountant alice acctNearMax

/-- The store that holds the record without coins and with sequence 0 at the
key of `alice`. -/
def storeZero : KVStore := storeWith sampleCodec coinAccountant alice zeroAccount

/-- A history of three calls with an empty delta on the address `alice`,
claiming the sequences 1, 1 and 2. -/
def sampleHistory : List Call :=
  [{ addr := alice, coins := [], seq := 1 },
   { addr := alice, coins := [], seq := 1 },
   { addr := alice, coins := [], seq := 2 }]

/-! ## The sample wire format round-trips -/

theorem decNat_encNat (n : Nat) (t : Bytes) : decNat (encNat n ++ t) = some (n, t) := by
  induction n with
  | zero => simp [encNat, decNat]
  | succ k ih => simp [encNat, decNat, ih]

theorem decInt_encInt (z : Int) (t : Bytes) : decInt (encInt z ++ t) = some (z, t) := by
  by_cases hz : z < 0
  · simp [encInt, decInt, decNat_encNat, hz, abs_of_neg hz]
  · simp [encInt, decInt, decNat_encNat, hz, abs_of_nonneg (not_lt.mp hz)]

theorem decChars_encChars (cs : List Char) (t : Bytes) :
    decChars cs.length (encChars cs ++ t) = some (cs, t) := by
  induction cs with
  | nil => simp [encChars, decChars]
  | cons c cs ih => simp [encChars, decChars, decNat_encNat, ih, List.append_assoc]

theorem decString_encString (s : String) (t : Bytes) :
    decString (encString s ++ t) = some (s, t) := by
  have h := decChars_encChars s.data t
  simp only [encString, decString, decNat_encNat, List.append_assoc, h]

theorem decCoin_encCoin (c : Coin) (t : Bytes) : decCoin (encCoin c ++ t) = some (c, t) := by
  simp [encCoin, decCoin, decString_encString, decInt_encInt, List.append_assoc]

theorem decCoinList_encCoinList (cs : Coins) (t : Bytes) :
    decCoinList cs.length (encCoinList cs ++ t) = some (cs, t) := by
  induction cs with
  | nil => simp [encCoinList, decCoinList]
  | cons c cs ih => simp [encCoinList, decCoinList, decCoin_encCoin, ih, List.append_assoc]

theorem decAccount_encAccount (acct : Account) : decAccount (encAccount acct) = some acct := by
  have h := decInt_encInt acct.Sequence []
  simp only [List.append_nil] at h
  simp [encAccount, decAccount, decNat_encNat, decCoinList_encCoinList, h, List.append_assoc]

theorem sampleCodec_roundTrips : sampleCodec.RoundTrips := by
  intro acct
  simp [sampleCodec, decAccount_encAccount]

theorem sampleCodec_nonEmpty : sampleCodec.NonEmpty := by
  intro acct
  cases h : acct.Coins.length <;> simp [sampleCodec, encAccount, encNat, h]

theorem emptyOnlyForZero_of_nonEmpty (cdc : Codec) (h : cdc.NonEmpty) : cdc.EmptyOnlyForZero :=
  fun acct he => absurd he (h acct)

/-! ## Facts about `int` arithmetic -/

theorem wrapInt_of_isInt (z : Int) (hz : IsInt z) : wrapInt z = z := by
  unfold IsInt minInt maxInt at hz
  unfold wrapInt
  norm_num at *
  omega

theorem intAdd_one_of_lt (n : Int) (hn : IsInt n) (hlt : n < maxInt) : intAdd n 1 = n + 1 := by
  unfold IsInt minInt maxInt at *
  unfold intAdd wrapInt
  norm_num at *
  omega

theorem intAdd_one_of_eq (n s : Int) (hs : IsInt s) (h : s = n + 1) : s = intAdd n 1 := by
  unfold intAdd
  rw [← h, wrapInt_of_isInt s hs]

/-! ## Facts about coins -/

theorem IsPositive_eq_true_iff (c : Coins) :
    IsPositive c = true ↔ c ≠ [] ∧ ∀ x ∈ c, 0 < x.Amount := by
  cases c <;> simp [IsPositive]

theorem IsPositive_eq_false_iff (c : Coins) :
    IsPositive c = false ↔ c = [] ∨ ∃ x ∈ c, x.Amount ≤ 0 := by
  rw [← Bool.not_eq_true, IsPositive_eq_true_iff]
  constructor
  · intro h
    by_cases hc : c = []
    · exact Or.inl hc
    · right
      by_contra hx
      exact h ⟨hc, fun x hm => by
        by_contra hlt
        exact hx ⟨x, hm, not_lt.mp hlt⟩⟩
  · rintro (hc | ⟨x, hm, hx⟩) ⟨hne, hall⟩
    · exact hne hc
    · exact absurd (hall x hm) (not_lt.mpr hx)

theorem IsNonnegative_eq_true_iff (c : Coins) :
    IsNonnegative c = true ↔ ∀ x ∈ c, 0 ≤ x.Amount := by
  simp [IsNonnegative]

theorem IsNonnegative_eq_false_iff (c : Coins) :
    IsNonnegative c = false ↔ ∃ x ∈ c, x.Amount < 0 := by
  rw [← Bool.not_eq_true, IsNonnegative_eq_true_iff]
  push_neg
  rfl

theorem mem_insertDenom (d y : String) (l : List String) :
    y ∈ insertDenom d l ↔ y = d ∨ y ∈ l := by
  induction l with
  | nil => simp [insertDenom]
  | cons x xs ih =>
    unfold insertDenom
    split_ifs with h1 h2
    · simp
    · subst h2
      simp
    · simp only [List.mem_cons, ih]
      tauto

theorem mem_foldr_insertDenom (y : String) (l : List String) :
    y ∈ l.foldr insertDenom [] ↔ y ∈ l := by
  induction l with
  | nil => simp
  | cons x xs ih => simp [mem_insertDenom, ih]

theorem mem_denoms (a b : Coins) (d : String) :
    d ∈ denoms a b ↔ d ∈ a.map Coin.Denom ∨ d ∈ b.map Coin.Denom := by
  unfold denoms
  rw [mem_foldr_insertDenom, List.map_append, List.mem_append]

theorem amountOf_of_not_mem (c : Coins) (d : String) (h : d ∉ c.map Coin.Denom) :
    amountOf c d = 0 := by
  induction c with
  | nil => rfl
  | cons x xs ih =>
    simp only [List.map_cons, List.mem_cons, not_or] at h
    unfold amountOf
    rw [if_neg (fun e => h.1 e.symm)]
    exact ih h.2

theorem amountOf_map (l : List String) (f : String → Int) (d : String) :
    amountOf (l.map (fun k => { Denom := k, Amount := f k })) d = if d ∈ l then f d else 0 := by
  induction l with
  | nil => rfl
  | cons x xs ih =>
    simp only [List.map_cons, amountOf, List.mem_cons]
    by_cases hx : x = d
    · subst hx
      simp
    · rw [if_neg hx, ih]
      have hx2 : ¬ d = x := fun e => hx e.symm
      simp [hx2]

theorem amountOf_Plus (a b : Coins) (d : String) :
    amountOf (Plus a b) d = amountOf a d + amountOf b d := by
  unfold Plus
  rw [amountOf_map]
  split_ifs with h
  · rfl
  · rw [mem_denoms, not_or] at h
    rw [amountOf_of_not_mem a d h.1, amountOf_of_not_mem b d h.2]
    rfl

theorem amountOf_nonneg (c : Coins) (d : String) (h : ∀ x ∈ c, 0 ≤ x.Amount) :
    0 ≤ amountOf c d := by
  induction c with
  | nil => exact le_refl _
  | cons x xs ih =>
    unfold amountOf
    split_ifs
    · exact h x (List.mem_cons_self _ _)
    · exact ih (fun y hy => h y (List.mem_cons_of_mem _ hy))

theorem Plus_nonneg (a b : Coins) (ha : ∀ x ∈ a, 0 ≤ x.Amount) (hb : ∀ x ∈ b, 0 ≤ x.Amount) :
    IsNonnegative (Plus a b) = true := by
  rw [IsNonnegative_eq_true_iff]
  intro x hx
  unfold Plus at hx
  rw [List.mem_map] at hx
  obtain ⟨d, -, rfl⟩ := hx
  exact add_nonneg (amountOf_nonneg a d ha) (amountOf_nonneg b d hb)

/-! ## Facts about loading a record -/

theorem loadAccount_store (cdc : Codec) (store : KVStore) (key : Bytes) :
    (loadAccount cdc store key).store = store := by
  unfold loadAccount KVStore.Get
  simp only
  split
  · rfl
  · split <;> rfl

theorem loadAccount_absent (cdc : Codec) (store : KVStore) (key : Bytes) (h : store key = []) :
    loadAccount cdc store key =
      { val := zeroAccount, err := some CoinError.NoAccount, store := store } := by
  simp [loadAccount, KVStore.Get, h]

theorem loadAccount_decoded (cdc : Codec) (store : KVStore) (key : Bytes) (acct : Account)
    (hne : store key ≠ []) (hdec : cdc.ReadBinaryBytes (store key) = (acct, true)) :
    loadAccount cdc store key = { val := acct, err := none, store := store } := by
  simp [loadAccount, KVStore.Get, hne, hdec]

theorem storeWith_get (cdc : Codec) (a : Accountant) (addr : Actor) (acct : Account) :
    storeWith cdc a addr acct (a.MakeKey addr) = cdc.BinaryBytes acct := by
  simp [storeWith, KVStore.Set]

theorem load_storeWith (a : Accountant) (addr : Actor) (acct : Account) :
    loadAccount sampleCodec (storeWith sampleCodec a addr acct) (a.MakeKey addr) =
      { val := acct, err := none, store := storeWith sampleCodec a addr acct } := by
  apply loadAccount_decoded
  · rw [storeWith_get]
    exact sampleCodec_nonEmpty acct
  · rw [storeWith_get]
    exact sampleCodec_roundTrips acct

theorem load_set (cdc : Codec) (hrt : cdc.RoundTrips) (hne : cdc.NonEmpty) (store : KVStore)
    (key : Bytes) (acct : Account) :
    loadAccount cdc (store.Set key (cdc.BinaryBytes acct)) key =
      { val := acct, err := none, store := store.Set key (cdc.BinaryBytes acct) } := by
  apply loadAccount_decoded
  · simp only [KVStore.Set, if_true]
    exact hne acct
  · simp only [KVStore.Set, if_true]
    exact hrt acct

theorem load70 :
    loadAccount sampleCodec store70 (coinAccountant.MakeKey alice) =
      { val := acct70, err := none, store := store70 } :=
  load_storeWith coinAccountant alice acct70

theorem loadMax :
    loadAccount sampleCodec storeMax (coinAccountant.MakeKey alice) =
      { val := acctMax, err := none, store := storeMax } :=
  load_storeWith coinAccountant alice acctMax

theorem store70_ne : store70 (coinAccountant.MakeKey alice) ≠ [] := by
  unfold store70
  rw [storeWith_get]
  exact sampleCodec_nonEmpty acct70

theorem store70_decodes :
    sampleCodec.ReadBinaryBytes (store70 (coinAccountant.MakeKey alice)) = (acct70, true) := by
  unfold store70
  rw [storeWith_get]
  exact sampleCodec_roundTrips acct70

theorem GetAccount_of_load (cdc : Codec) (a : Accountant) (store : KVStore) (addr : Actor)
    (acct : Account)
    (hl : loadAccount cdc store (a.MakeKey addr) = { val := acct, err := none, store := store }) :
    a.GetAccount cdc store addr = { val := acct, err := none, store := store } := by
  unfold Accountant.GetAccount
  rw [hl]
  rfl

theorem GetAccount_after_set (cdc : Codec) (hrt : cdc.RoundTrips) (hz : cdc.EmptyOnlyForZero)
    (a : Accountant) (store : KVStore) (addr : Actor) (acct : Account) :
    (a.GetAccount cdc (store.Set (a.MakeKey addr) (cdc.BinaryBytes acct)) addr).err = none ∧
    (a.GetAccount cdc (store.Set (a.MakeKey addr) (cdc.BinaryBytes acct)) addr).val = acct := by
  by_cases he : cdc.BinaryBytes acct = []
  · have hl := loadAccount_absent cdc (store.Set (a.MakeKey addr) (cdc.BinaryBytes acct))
      (a.MakeKey addr) (by simp [KVStore.Set, he])
    unfold Accountant.GetAccount
    rw [hl]
    exact ⟨rfl, (hz acct he).symm⟩
  · have hl := loadAccount_decoded cdc (store.Set (a.MakeKey addr) (cdc.BinaryBytes acct))
      (a.MakeKey addr) acct (by simp [KVStore.Set, he]) (by simp [KVStore.Set, hrt acct])
    rw [GetAccount_of_load cdc a _ addr acct hl]
    exact ⟨rfl, rfl⟩

/-! ## Facts about updating a record -/

theorem checkAmount_store (acct : Account) (coins : Coins) (store : KVStore) :
    (checkAmount acct coins store).store = store := by
  unfold checkAmount
  simp only
  split <;> rfl

theorem checkAmount_err (acct : Account) (coins : Coins) (store : KVStore) :
    (checkAmount acct coins store).err =
      if IsNonnegative (Plus acct.Coins coins) = true then none
      else some CoinError.InsufficientFunds := by
  unfold checkAmount
  simp only
  split_ifs <;> simp_all

theorem updateCoins_store (cdc : Codec) (a : Accountant) (store : KVStore) (addr : Actor)
    (coins : Coins) (seq : Int) :
    (a.updateCoins cdc store addr coins seq).store = store := by
  unfold Accountant.updateCoins
  simp only
  split_ifs <;> simp only [checkAmount_store, loadAccount_store]

theorem updateCoins_ok (cdc : Codec) (a : Accountant) (store : KVStore) (addr : Actor)
    (coins : Coins) (seq : Int) (hok : (a.updateCoins cdc store addr coins seq).err = none) :
    (a.updateCoins cdc store addr coins seq).val =
      { Coins := Plus (loadAccount cdc store (a.MakeKey addr)).val.Coins coins
        Sequence := if IsPositive coins = true
          then (loadAccount cdc store (a.MakeKey addr)).val.Sequence
          else intAdd (loadAccount cdc store (a.MakeKey addr)).val.Sequence 1 } ∧
    IsNonnegative (Plus (loadAccount cdc store (a.MakeKey addr)).val.Coins coins) = true ∧
    (IsPositive coins = false →
      seq = intAdd (loadAccount cdc store (a.MakeKey addr)).val.Sequence 1 ∧
      (loadAccount cdc store (a.MakeKey addr)).err = none) := by
  unfold Accountant.updateCoins checkAmount at *
  simp only at *
  split_ifs at hok ⊢ <;> simp_all

theorem updateCoins_passed (cdc : Codec) (a : Accountant) (store : KVStore) (addr : Actor)
    (coins : Coins) (seq : Int)
    (hload : (loadAccount cdc store (a.MakeKey addr)).err = none ∨
      ((loadAccount cdc store (a.MakeKey addr)).err = some CoinError.NoAccount ∧
        IsPositive coins = true))
    (hseq : IsPositive coins = true ∨
      seq = intAdd (loadAccount cdc store (a.MakeKey addr)).val.Sequence 1) :
    a.updateCoins cdc store addr coins seq =
      checkAmount
        { Coins := (loadAccount cdc store (a.MakeKey addr)).val.Coins
          Sequence := if IsPositive coins = true
            then (loadAccount cdc store (a.MakeKey addr)).val.Sequence
            else intAdd (loadAccount cdc store (a.MakeKey addr)).val.Sequence 1 }
        coins store := by
  unfold Accountant.updateCoins
  simp only [loadAccount_store]
  cases hpos : IsPositive coins
  · have hl : (loadAccount cdc store (a.MakeKey addr)).err = none := by
      rcases hload with h | ⟨-, h⟩
      · exact h
      · rw [hpos] at h; exact absurd h (by simp)
    have hs : seq = intAdd (loadAccount cdc store (a.MakeKey addr)).val.Sequence 1 := by
      rcases hseq with h | h
      · rw [hpos] at h; exact absurd h (by simp)
      · exact h
    simp [hl, ← hs, IsNoAccountErr]
  · rcases hload with h | ⟨h, -⟩ <;> simp [h, IsNoAccountErr]

theorem updateCoins_failed_coins (cdc : Codec) (a : Accountant) (store : KVStore) (addr : Actor)
    (coins : Coins) (seq : Int) (herr : (a.updateCoins cdc store addr coins seq).err ≠ none) :
    (a.updateCoins cdc store addr coins seq).val.Coins
      = (loadAccount cdc store (a.MakeKey addr)).val.Coins := by
  unfold Accountant.updateCoins checkAmount at *
  simp only at *
  split_ifs at herr ⊢ <;> simp_all

theorem CheckCoins_err (cdc : Codec) (a : Accountant) (store : KVStore) (addr : Actor)
    (coins : Coins) (seq : Int) :
    (a.CheckCoins cdc store addr coins seq).err = (a.updateCoins cdc store addr coins seq).err :=
  rfl

theorem ChangeCoins_err (cdc : Codec) (a : Accountant) (store : KVStore) (addr : Actor)
    (coins : Coins) (seq : Int) :
    (a.ChangeCoins cdc store addr coins seq).err = (a.updateCoins cdc store addr coins seq).err := by
  unfold Accountant.ChangeCoins
  simp only
  split_ifs with h
  · rfl
  · simp only [storeAccount]
    exact (not_not.mp h).symm

theorem ChangeCoins_ok (cdc : Codec) (a : Accountant) (store : KVStore) (addr : Actor)
    (coins : Coins) (seq : Int) (hok : (a.ChangeCoins cdc store addr coins seq).err = none) :
    (a.updateCoins cdc store addr coins seq).err = none ∧
    (a.ChangeCoins cdc store addr coins seq).val
      = (a.updateCoins cdc store addr coins seq).val.Coins ∧
    (a.ChangeCoins cdc store addr coins seq).store
      = store.Set (a.MakeKey addr)
          (cdc.BinaryBytes (a.updateCoins cdc store addr coins seq).val) := by
  unfold Accountant.ChangeCoins at *
  simp only at *
  split_ifs at hok ⊢ with h
  · exact absurd hok h
  · exact ⟨not_not.mp h, rfl, by simp [storeAccount, updateCoins_store]⟩

theorem ChangeCoins_failed (cdc : Codec) (a : Accountant) (store : KVStore) (addr : Actor)
    (coins : Coins) (seq : Int) (herr : (a.updateCoins cdc store addr coins seq).err ≠ none) :
    a.ChangeCoins cdc store addr coins seq =
      { val := (a.updateCoins cdc store addr coins seq).val.Coins
        err := (a.updateCoins cdc store addr coins seq).err
        store := store } := by
  unfold Accountant.ChangeCoins
  simp only [if_pos herr, updateCoins_store]

theorem ChangeCoins_debit_ok (cdc : Codec) (a : Accountant) (store : KVStore) (addr : Actor)
    (coins : Coins) (seq : Int) (cur : Account)
    (hl : loadAccount cdc store (a.MakeKey addr) = { val := cur, err := none, store := store })
    (hpos : IsPositive coins = false) (hseq : seq = intAdd cur.Sequence 1)
    (hfunds : IsNonnegative (Plus cur.Coins coins) = true) :
    a.ChangeCoins cdc store addr coins seq =
      { val := Plus cur.Coins coins, err := none
        store := store.Set (a.MakeKey addr)
          (cdc.BinaryBytes { Coins := Plus cur.Coins coins, Sequence := seq }) } := by
  have hupd : a.updateCoins cdc store addr coins seq =
      { val := { Coins := Plus cur.Coins coins, Sequence := seq }, err := none,
        store := store } := by
    unfold Accountant.updateCoins
    rw [hl]
    simp [hpos, ← hseq, hfunds, checkAmount, IsNoAccountErr]
  unfold Accountant.ChangeCoins
  rw [hupd]
  simp [storeAccount]

theorem ChangeCoins_debit_insufficient (cdc : Codec) (a : Accountant) (store : KVStore)
    (addr : Actor) (coins : Coins) (seq : Int) (cur : Account)
    (hl : loadAccount cdc store (a.MakeKey addr) = { val := cur, err := none, store := store })
    (hpos : IsPositive coins = false) (hseq : seq = intAdd cur.Sequence 1)
    (hfunds : IsNonnegative (Plus cur.Coins coins) = false) :
    a.ChangeCoins cdc store addr coins seq =
      { val := cur.Coins, err := some CoinError.InsufficientFunds, store := store } := by
  have hupd : a.updateCoins cdc store addr coins seq =
      { val := { Coins := cur.Coins, Sequence := seq },
        err := some CoinError.InsufficientFunds, store := store } := by
    unfold Accountant.updateCoins
    rw [hl]
    simp [hpos, ← hseq, hfunds, checkAmount, IsNoAccountErr]
  unfold Accountant.ChangeCoins
  rw [hupd]
  simp

/-! ## Atomicity and the two entry points -/

/-- C1. Atomicity of `ChangeCoins`: whenever `ChangeCoins` returns an error, the
store after the call is the store before the call. -/
theorem ChangeCoins_error_leaves_store (cdc : Codec) (a : Accountant) (store : KVStore)
    (addr : Actor) (coins : Coins) (seq : Int)
    (herr : (a.ChangeCoins cdc store addr coins seq).err ≠ none) :
    (a.ChangeCoins cdc store addr coins seq).store = store := by
  unfold Accountant.ChangeCoins at herr ⊢
  simp only at herr ⊢
  split
  · exact updateCoins_store cdc a store addr coins seq
  · rename_i h
    rw [if_neg h] at herr
    exact absurd rfl herr

theorem ChangeCoins_error_leaves_store_witness :
    (coinAccountant.ChangeCoins sampleCodec emptyStore alice [⟨"atom", -5⟩] 1).err ≠ none ∧
    (coinAccountant.ChangeCoins sampleCodec emptyStore alice [⟨"atom", -5⟩] 1).store
      = emptyStore :=
  ⟨by decide, ChangeCoins_error_leaves_store sampleCodec coinAccountant emptyStore alice
    [⟨"atom", -5⟩] 1 (by decide)⟩

/-- C2. `CheckCoins` and `ChangeCoins`, on identical inputs and identical
starting stores, return the same balance and the same error; the write step of
`ChangeCoins` adds no error of its own. -/
theorem CheckCoins_ChangeCoins_same_result (cdc : Codec) (a : Accountant) (store : KVStore)
    (addr : Actor) (coins : Coins) (seq : Int) :
    (a.CheckCoins cdc store addr coins seq).val = (a.ChangeCoins cdc store addr coins seq).val ∧
    (a.CheckCoins cdc store addr coins seq).err = (a.ChangeCoins cdc store addr coins seq).err := by
  unfold Accountant.CheckCoins Accountant.ChangeCoins
  simp only
  split
  · exact ⟨rfl, rfl⟩
  · rename_i h
    refine ⟨rfl, ?_⟩
    simp only [storeAccount]
    exact not_not.mp h

/-- C3. `CheckCoins` performs no store mutation: whatever it returns, the store
after the call is the store before it. -/
theorem CheckCoins_leaves_store (cdc : Codec) (a : Accountant) (store : KVStore)
    (addr : Actor) (coins : Coins) (seq : Int) :
    (a.CheckCoins cdc store addr coins seq).store = store := by
  unfold Accountant.CheckCoins
  exact updateCoins_store cdc a store addr coins seq

/-! ## The sequence gate and the sequence step -/

/-- C4, counterexample. The stored record has the largest `int` as sequence `n`;
the delta of zero atoms is not a credit and the claimed sequence, the smallest
`int`, is not `n + 1`; yet `CheckCoins` and `ChangeCoins` return no error,
because `acct.Sequence+1` wraps to the smallest `int`. -/
theorem sequence_gate_passes_at_maxInt :
    (coinAccountant.GetAccount sampleCodec storeMax alice).val.Sequence = maxInt ∧
    IsInt minInt ∧ minInt ≠ maxInt + 1 ∧
    (∃ c ∈ [({ Denom := "atom", Amount := 0 } : Coin)], c.Amount ≤ 0) ∧
    (coinAccountant.CheckCoins sampleCodec storeMax alice [⟨"atom", 0⟩] minInt).err = none ∧
    (coinAccountant.ChangeCoins sampleCodec storeMax alice [⟨"atom", 0⟩] minInt).err = none := by
  have hchg := ChangeCoins_debit_ok sampleCodec coinAccountant storeMax alice [⟨"atom", 0⟩]
    minInt acctMax loadMax (by decide) (by decide) (by decide)
  refine ⟨?_, by decide, by decide, ⟨⟨"atom", 0⟩, by simp, by decide⟩, ?_, ?_⟩
  · rw [GetAccount_of_load _ _ _ _ _ loadMax]
    rfl
  · rw [CheckCoins_err, ← ChangeCoins_err, hchg]
  · rw [hchg]

/-- C4, as amended. Sequence gate: when the store holds a decodable record `acct` at the
address, the delta is not a credit (it is empty, or has an amount `≤ 0`) and the
claimed sequence is not `acct.Sequence+1` in the wrapping `int` arithmetic of
the code, both
`CheckCoins` and `ChangeCoins` fail with `InvalidSequence`, whatever the funds,
the store is left as it was and the record read back is still `acct`. -/
theorem sequence_gate (cdc : Codec) (a : Accountant) (store : KVStore) (addr : Actor)
    (coins : Coins) (seq : Int) (acct : Account)
    (hne : store (a.MakeKey addr) ≠ [])
    (hdec : cdc.ReadBinaryBytes (store (a.MakeKey addr)) = (acct, true))
    (hdebit : coins = [] ∨ ∃ c ∈ coins, c.Amount ≤ 0)
    (hseq : seq ≠ intAdd acct.Sequence 1) :
    (a.CheckCoins cdc store addr coins seq).err = some CoinError.InvalidSequence ∧
    (a.ChangeCoins cdc store addr coins seq).err = some CoinError.InvalidSequence ∧
    (a.CheckCoins cdc store addr coins seq).store = store ∧
    (a.ChangeCoins cdc store addr coins seq).store = store ∧
    (a.GetAccount cdc (a.ChangeCoins cdc store addr coins seq).store addr).val = acct := by
  have hpos : IsPositive coins = false := (IsPositive_eq_false_iff coins).mpr hdebit
  have hload := loadAccount_decoded cdc store (a.MakeKey addr) acct hne hdec
  have hupd : a.updateCoins cdc store addr coins seq =
      { val := acct, err := some CoinError.InvalidSequence, store := store } := by
    simp [Accountant.updateCoins, hload, hpos, hseq, IsNoAccountErr]
  have hchg : a.ChangeCoins cdc store addr coins seq =
      { val := acct.Coins, err := some CoinError.InvalidSequence, store := store } := by
    simp [Accountant.ChangeCoins, hupd]
  refine ⟨?_, ?_, ?_, ?_, ?_⟩
  · simp [Accountant.CheckCoins, hupd]
  · rw [hchg]
  · simp [Accountant.CheckCoins, hupd]
  · rw [hchg]
  · rw [hchg]
    simp [Accountant.GetAccount, hload, IsNoAccountErr]

theorem sequence_gate_witness :
    (coinAccountant.CheckCoins sampleCodec store70 alice [⟨"atom", -30⟩] 1).err
      = some CoinError.InvalidSequence ∧
    (coinAccountant.ChangeCoins sampleCodec store70 alice [⟨"atom", -30⟩] 1).err
      = some CoinError.InvalidSequence ∧
    (coinAccountant.CheckCoins sampleCodec store70 alice [⟨"atom", -30⟩] 1).store = store70 ∧
    (coinAccountant.ChangeCoins sampleCodec store70 alice [⟨"atom", -30⟩] 1).store = store70 ∧
    (coinAccountant.GetAccount sampleCodec
      (coinAccountant.ChangeCoins sampleCodec store70 alice [⟨"atom", -30⟩] 1).store alice).val
      = acct70 :=
  sequence_gate sampleCodec coinAccountant store70 alice [⟨"atom", -30⟩] 1 acct70
    store70_ne store70_decodes (Or.inr ⟨⟨"atom", -30⟩, by simp, by decide⟩) (by decide)

/-- C5, counterexample. From a stored record whose sequence is the largest
`int`, an empty delta with the smallest `int` as claimed sequence is accepted,
and the record stored afterwards has the smallest `int` as sequence: the stored
sequence went down, and it is not the sequence before plus one. -/
theorem sequence_wraps_at_maxInt :
    (coinAccountant.GetAccount sampleCodec storeMax alice).val.Sequence = maxInt ∧
    (coinAccountant.ChangeCoins sampleCodec storeMax alice [] minInt).err = none ∧
    (coinAccountant.GetAccount sampleCodec
      (coinAccountant.ChangeCoins sampleCodec storeMax alice [] minInt).store alice).val.Sequence
      = minInt ∧
    minInt < maxInt ∧ minInt ≠ maxInt + 1 := by
  have hchg := ChangeCoins_debit_ok sampleCodec coinAccountant storeMax alice [] minInt acctMax
    loadMax (by decide) (by decide) (by decide)
  refine ⟨?_, ?_, ?_, by decide, by decide⟩
  · rw [GetAccount_of_load _ _ _ _ _ loadMax]
    rfl
  · rw [hchg]
  · rw [hchg]
    rw [GetAccount_of_load _ _ _ _ _
      (load_set sampleCodec sampleCodec_roundTrips sampleCodec_nonEmpty _ _ _)]

/-- C5, as amended. After a successful `ChangeCoins` on an address whose current
(stored or zero-value) record is `cur`, the record written at the key of the
address has the balance `cur.Coins.Plus(delta)` and the sequence `cur.Sequence`
for a credit, `cur.Sequence+1` in `int` arithmetic otherwise. When
`cur.Sequence` is an `int` below the largest one, that is exactly
`cur.Sequence + 1` for a non-credit, and the sequence written is never below
`cur.Sequence`. On an address with no stored bytes only a credit succeeds, and
the record it writes has sequence 0. -/
theorem ChangeCoins_sequence_step (cdc : Codec) (a : Accountant) (store : KVStore)
    (addr : Actor) (coins : Coins) (seq : Int)
    (hok : (a.ChangeCoins cdc store addr coins seq).err = none) :
    (a.ChangeCoins cdc store addr coins seq).store =
      store.Set (a.MakeKey addr) (cdc.BinaryBytes
        { Coins := Plus (loadAccount cdc store (a.MakeKey addr)).val.Coins coins
          Sequence := if IsPositive coins = true
            then (loadAccount cdc store (a.MakeKey addr)).val.Sequence
            else intAdd (loadAccount cdc store (a.MakeKey addr)).val.Sequence 1 }) ∧
    (IsInt (loadAccount cdc store (a.MakeKey addr)).val.Sequence →
      (loadAccount cdc store (a.MakeKey addr)).val.Sequence < maxInt →
      (IsPositive coins = false →
        intAdd (loadAccount cdc store (a.MakeKey addr)).val.Sequence 1
          = (loadAccount cdc store (a.MakeKey addr)).val.Sequence + 1) ∧
      (loadAccount cdc store (a.MakeKey addr)).val.Sequence ≤
        (if IsPositive coins = true
          then (loadAccount cdc store (a.MakeKey addr)).val.Sequence
          else intAdd (loadAccount cdc store (a.MakeKey addr)).val.Sequence 1)) ∧
    (store (a.MakeKey addr) = [] →
      IsPositive coins = true ∧
      (if IsPositive coins = true
        then (loadAccount cdc store (a.MakeKey addr)).val.Sequence
        else intAdd (loadAccount cdc store (a.MakeKey addr)).val.Sequence 1) = 0) := by
  obtain ⟨hupd, -, hstore⟩ := ChangeCoins_ok cdc a store addr coins seq hok
  obtain ⟨hval, -, hdebit⟩ := updateCoins_ok cdc a store addr coins seq hupd
  refine ⟨?_, ?_, ?_⟩
  · rw [hstore, hval]
  · intro hint hlt
    have hstep := intAdd_one_of_lt _ hint hlt
    refine ⟨fun _ => hstep, ?_⟩
    split_ifs
    · exact le_refl _
    · rw [hstep]; omega
  · intro habs
    have hl := loadAccount_absent cdc store (a.MakeKey addr) habs
    cases hpos : IsPositive coins
    · have := (hdebit hpos).2
      rw [hl] at this
      exact absurd this (by simp)
    · rw [hl]
      exact ⟨rfl, rfl⟩

theorem ChangeCoins_sequence_step_witness :
    (coinAccountant.ChangeCoins sampleCodec store70 alice [⟨"atom", -30⟩] 2).err = none ∧
    (coinAccountant.ChangeCoins sampleCodec store70 alice [⟨"atom", -30⟩] 2).store =
      store70.Set (coinAccountant.MakeKey alice) (sampleCodec.BinaryBytes
        { Coins := [⟨"atom", 40⟩], Sequence := 2 }) := by
  have hok : (coinAccountant.ChangeCoins sampleCodec store70 alice [⟨"atom", -30⟩] 2).err
      = none := by
    rw [ChangeCoins_debit_ok sampleCodec coinAccountant store70 alice [⟨"atom", -30⟩] 2 acct70
      load70 (by decide) (by decide) (by decide)]
  refine ⟨hok, ?_⟩
  have h1 : IsPositive [⟨"atom", -30⟩] = false := by decide
  have h2 : intAdd acct70.Sequence 1 = 2 := by decide
  have h3 : Plus acct70.Coins [⟨"atom", -30⟩] = [⟨"atom", 40⟩] := by decide
  have h := (ChangeCoins_sequence_step sampleCodec coinAccountant store70 alice
    [⟨"atom", -30⟩] 2 hok).1
  rw [h, load70]
  simp [h1, h2, h3]

/-! ## The funds check, credits and the resulting balance -/

/-- C6. When the record was loaded (or defaulted for a credit) and the sequence
step passed (the delta is a credit, or the claimed sequence, an `int`, equals
the current sequence plus one), `CheckCoins` and `ChangeCoins` fail with
`InsufficientFunds` exactly when some amount of `current.Coins.Plus(delta)` is
negative, and succeed otherwise; on that failure the store, and so the record
read back with its sequence, is what it was. -/
theorem insufficient_funds_iff (cdc : Codec) (a : Accountant) (store : KVStore) (addr : Actor)
    (coins : Coins) (seq : Int)
    (hload : (loadAccount cdc store (a.MakeKey addr)).err = none ∨
      ((loadAccount cdc store (a.MakeKey addr)).err = some CoinError.NoAccount ∧
        IsPositive coins = true))
    (hseq : IsPositive coins = true ∨
      (IsInt seq ∧ seq = (loadAccount cdc store (a.MakeKey addr)).val.Sequence + 1)) :
    ((a.CheckCoins cdc store addr coins seq).err = some CoinError.InsufficientFunds ↔
      ∃ c ∈ Plus (loadAccount cdc store (a.MakeKey addr)).val.Coins coins, c.Amount < 0) ∧
    ((a.ChangeCoins cdc store addr coins seq).err = some CoinError.InsufficientFunds ↔
      ∃ c ∈ Plus (loadAccount cdc store (a.MakeKey addr)).val.Coins coins, c.Amount < 0) ∧
    ((¬ ∃ c ∈ Plus (loadAccount cdc store (a.MakeKey addr)).val.Coins coins, c.Amount < 0) →
      (a.CheckCoins cdc store addr coins seq).err = none ∧
      (a.ChangeCoins cdc store addr coins seq).err = none) ∧
    ((a.ChangeCoins cdc store addr coins seq).err = some CoinError.InsufficientFunds →
      (a.ChangeCoins cdc store addr coins seq).store = store ∧
      a.GetAccount cdc (a.ChangeCoins cdc store addr coins seq).store addr
        = a.GetAccount cdc store addr) := by
  have hseq2 : IsPositive coins = true ∨
      seq = intAdd (loadAccount cdc store (a.MakeKey addr)).val.Sequence 1 :=
    hseq.imp id (fun h => intAdd_one_of_eq _ seq h.1 h.2)
  have hupd := updateCoins_passed cdc a store addr coins seq hload hseq2
  have herr : (a.updateCoins cdc store addr coins seq).err =
      if IsNonnegative (Plus (loadAccount cdc store (a.MakeKey addr)).val.Coins coins) = true
      then none else some CoinError.InsufficientFunds := by
    rw [hupd, checkAmount_err]
  have hchk : (a.CheckCoins cdc store addr coins seq).err
      = (a.updateCoins cdc store addr coins seq).err := rfl
  have hiff : (a.updateCoins cdc store addr coins seq).err = some CoinError.InsufficientFunds ↔
      ∃ c ∈ Plus (loadAccount cdc store (a.MakeKey addr)).val.Coins coins, c.Amount < 0 := by
    rw [herr, ← IsNonnegative_eq_false_iff]
    cases IsNonnegative (Plus (loadAccount cdc store (a.MakeKey addr)).val.Coins coins) <;> simp
  refine ⟨?_, ?_, ?_, ?_⟩
  · rw [hchk]; exact hiff
  · rw [ChangeCoins_err]; exact hiff
  · intro hno
    rw [← IsNonnegative_eq_false_iff, Bool.not_eq_false] at hno
    rw [hchk, ChangeCoins_err, herr, if_pos hno]
    exact ⟨rfl, rfl⟩
  · intro hfail
    have hne : (a.updateCoins cdc store addr coins seq).err ≠ none := by
      rw [← ChangeCoins_err, hfail]; simp
    rw [ChangeCoins_failed cdc a store addr coins seq hne]
    exact ⟨rfl, rfl⟩

theorem insufficient_funds_iff_witness :
    (coinAccountant.ChangeCoins sampleCodec store70 alice [⟨"atom", -1000⟩] 2).err
      = some CoinError.InsufficientFunds ∧
    (coinAccountant.ChangeCoins sampleCodec store70 alice [⟨"atom", -1000⟩] 2).store = store70 ∧
    (coinAccountant.GetAccount sampleCodec store70 alice).val = acct70 := by
  have hl : (loadAccount sampleCodec store70 (coinAccountant.MakeKey alice)).err = none := by
    rw [load70]
  have hs : IsInt 2 ∧ (2 : Int) =
      (loadAccount sampleCodec store70 (coinAccountant.MakeKey alice)).val.Sequence + 1 := by
    rw [load70]; decide
  have h := insufficient_funds_iff sampleCodec coinAccountant store70 alice [⟨"atom", -1000⟩] 2
    (Or.inl hl) (Or.inr hs)
  have hneg : ∃ c ∈ Plus (loadAccount sampleCodec store70 (coinAccountant.MakeKey alice)).val.Coins
      [⟨"atom", -1000⟩], c.Amount < 0 := by
    rw [load70]; decide
  have hfail := h.2.1.mpr hneg
  refine ⟨hfail, (h.2.2.2 hfail).1, ?_⟩
  rw [GetAccount_of_load _ _ _ _ _ load70]

/-- C7. Credits are accepted unconditionally: when the address has no stored
bytes, or a decodable record whose amounts are all `≥ 0`, a credit (a non-empty
delta whose amounts are all `> 0`) makes `CheckCoins` and `ChangeCoins` succeed
for every claimed sequence, and the balance returned and the store left behind
are the same for any two claimed sequences. -/
theorem credit_accepted (cdc : Codec) (a : Accountant) (store : KVStore) (addr : Actor)
    (coins : Coins) (seq seq2 : Int)
    (hstore : store (a.MakeKey addr) = [] ∨
      ∃ acct : Account, store (a.MakeKey addr) ≠ [] ∧
        cdc.ReadBinaryBytes (store (a.MakeKey addr)) = (acct, true) ∧
        ∀ c ∈ acct.Coins, 0 ≤ c.Amount)
    (hcredit : coins ≠ [] ∧ ∀ c ∈ coins, 0 < c.Amount) :
    (a.CheckCoins cdc store addr coins seq).err = none ∧
    (a.ChangeCoins cdc store addr coins seq).err = none ∧
    (a.CheckCoins cdc store addr coins seq).val = (a.CheckCoins cdc store addr coins seq2).val ∧
    (a.ChangeCoins cdc store addr coins seq).val = (a.ChangeCoins cdc store addr coins seq2).val ∧
    (a.ChangeCoins cdc store addr coins seq).store
      = (a.ChangeCoins cdc store addr coins seq2).store := by
  have hpos : IsPositive coins = true := (IsPositive_eq_true_iff coins).mpr hcredit
  have hload : (loadAccount cdc store (a.MakeKey addr)).err = none ∨
      ((loadAccount cdc store (a.MakeKey addr)).err = some CoinError.NoAccount ∧
        IsPositive coins = true) := by
    rcases hstore with habs | ⟨acct, hne, hdec, -⟩
    · right
      rw [loadAccount_absent cdc store _ habs]
      exact ⟨rfl, hpos⟩
    · left
      rw [loadAccount_decoded cdc store _ acct hne hdec]
  have hcur : ∀ c ∈ (loadAccount cdc store (a.MakeKey addr)).val.Coins, 0 ≤ c.Amount := by
    rcases hstore with habs | ⟨acct, hne, hdec, hnn⟩
    · rw [loadAccount_absent cdc store _ habs]
      intro c hc
      simp [zeroAccount] at hc
    · rw [loadAccount_decoded cdc store _ acct hne hdec]
      exact hnn
  have hfunds := Plus_nonneg _ coins hcur (fun c hc => le_of_lt (hcredit.2 c hc))
  have hupd1 := updateCoins_passed cdc a store addr coins seq hload (Or.inl hpos)
  have hupd2 := updateCoins_passed cdc a store addr coins seq2 hload (Or.inl hpos)
  have hsame : a.updateCoins cdc store addr coins seq = a.updateCoins cdc store addr coins seq2 := by
    rw [hupd1, hupd2]
  have hok : (a.updateCoins cdc store addr coins seq).err = none := by
    rw [hupd1, checkAmount_err, if_pos hfunds]
  have hchg : a.ChangeCoins cdc store addr coins seq = a.ChangeCoins cdc store addr coins seq2 := by
    unfold Accountant.ChangeCoins
    rw [hsame]
  have hchk : a.CheckCoins cdc store addr coins seq = a.CheckCoins cdc store addr coins seq2 := by
    unfold Accountant.CheckCoins
    rw [hsame]
  refine ⟨hok, ?_, ?_, ?_, ?_⟩
  · rw [ChangeCoins_err]; exact hok
  · rw [hchk]
  · rw [hchg]
  · rw [hchg]

theorem credit_accepted_witness :
    (coinAccountant.CheckCoins sampleCodec emptyStore alice [⟨"atom", 100⟩] 0).err = none ∧
    (coinAccountant.ChangeCoins sampleCodec emptyStore alice [⟨"atom", 100⟩] 0).err = none ∧
    (coinAccountant.CheckCoins sampleCodec emptyStore alice [⟨"atom", 100⟩] 0).val
      = (coinAccountant.CheckCoins sampleCodec emptyStore alice [⟨"atom", 100⟩] 7).val ∧
    (coinAccountant.ChangeCoins sampleCodec emptyStore alice [⟨"atom", 100⟩] 0).val
      = (coinAccountant.ChangeCoins sampleCodec emptyStore alice [⟨"atom", 100⟩] 7).val ∧
    (coinAccountant.ChangeCoins sampleCodec emptyStore alice [⟨"atom", 100⟩] 0).store
      = (coinAccountant.ChangeCoins sampleCodec emptyStore alice [⟨"atom", 100⟩] 7).store :=
  credit_accepted sampleCodec coinAccountant emptyStore alice [⟨"atom", 100⟩] 0 7
    (Or.inl rfl) ⟨by simp, by decide⟩

/-- C8. Resulting balance: after a successful `CheckCoins` / `ChangeCoins` the
balance returned is `current.Coins.Plus(delta)`, and for every denomination its
amount there is the amount in the current balance (0 if absent) plus the amount
in the delta (0 if absent). -/
theorem result_balance (cdc : Codec) (a : Accountant) (store : KVStore) (addr : Actor)
    (coins : Coins) (seq : Int) (hok : (a.ChangeCoins cdc store addr coins seq).err = none) :
    (a.CheckCoins cdc store addr coins seq).err = none ∧
    (a.CheckCoins cdc store addr coins seq).val
      = Plus (loadAccount cdc store (a.MakeKey addr)).val.Coins coins ∧
    (a.ChangeCoins cdc store addr coins seq).val
      = Plus (loadAccount cdc store (a.MakeKey addr)).val.Coins coins ∧
    ∀ d : String, amountOf (a.ChangeCoins cdc store addr coins seq).val d =
      amountOf (loadAccount cdc store (a.MakeKey addr)).val.Coins d + amountOf coins d := by
  obtain ⟨hupd, hval, -⟩ := ChangeCoins_ok cdc a store addr coins seq hok
  obtain ⟨hacct, -, -⟩ := updateCoins_ok cdc a store addr coins seq hupd
  have hchk : (a.CheckCoins cdc store addr coins seq).val
      = (a.updateCoins cdc store addr coins seq).val.Coins := rfl
  refine ⟨hupd, ?_, ?_, ?_⟩
  · rw [hchk, hacct]
  · rw [hval, hacct]
  · intro d
    rw [hval, hacct]
    exact amountOf_Plus _ coins d

theorem result_balance_witness :
    (coinAccountant.ChangeCoins sampleCodec store70 alice [⟨"photon", 5⟩, ⟨"atom", -70⟩] 2).val
      = [⟨"atom", 0⟩, ⟨"photon", 5⟩] := by
  have hok : (coinAccountant.ChangeCoins sampleCodec store70 alice
      [⟨"photon", 5⟩, ⟨"atom", -70⟩] 2).err = none := by
    rw [ChangeCoins_debit_ok sampleCodec coinAccountant store70 alice
      [⟨"photon", 5⟩, ⟨"atom", -70⟩] 2 acct70 load70 (by decide) (by decide) (by decide)]
  rw [(result_balance sampleCodec coinAccountant store70 alice
    [⟨"photon", 5⟩, ⟨"atom", -70⟩] 2 hok).2.2.1, load70]
  decide

/-! ## Reading after writing -/

/-- C9. Read-after-write consistency: when the codec round-trips and, as the
contract of the external codec, encodes no record other than the zero-value
record as the empty byte string,
a successful `ChangeCoins` returning the balance `b` writes at the key
`MakeKey(addr)`, and `GetAccount` on the store left behind, through the same
accountant and address, returns no error and the record whose balance is `b`
and whose sequence is the updated sequence. -/
theorem read_after_write (cdc : Codec) (hrt : cdc.RoundTrips) (hz : cdc.EmptyOnlyForZero)
    (a : Accountant) (store : KVStore) (addr : Actor) (coins : Coins) (seq : Int)
    (hok : (a.ChangeCoins cdc store addr coins seq).err = none) :
    (a.ChangeCoins cdc store addr coins seq).store =
      store.Set (a.MakeKey addr) (cdc.BinaryBytes
        { Coins := (a.ChangeCoins cdc store addr coins seq).val
          Sequence := if IsPositive coins = true
            then (loadAccount cdc store (a.MakeKey addr)).val.Sequence
            else intAdd (loadAccount cdc store (a.MakeKey addr)).val.Sequence 1 }) ∧
    (a.GetAccount cdc (a.ChangeCoins cdc store addr coins seq).store addr).err = none ∧
    (a.GetAccount cdc (a.ChangeCoins cdc store addr coins seq).store addr).val =
      { Coins := (a.ChangeCoins cdc store addr coins seq).val
        Sequence := if IsPositive coins = true
          then (loadAccount cdc store (a.MakeKey addr)).val.Sequence
          else intAdd (loadAccount cdc store (a.MakeKey addr)).val.Sequence 1 } := by
  obtain ⟨hupd, hval, hstore⟩ := ChangeCoins_ok cdc a store addr coins seq hok
  obtain ⟨hacct, -, -⟩ := updateCoins_ok cdc a store addr coins seq hupd
  have hrec : (a.updateCoins cdc store addr coins seq).val =
      { Coins := (a.ChangeCoins cdc store addr coins seq).val
        Sequence := if IsPositive coins = true
          then (loadAccount cdc store (a.MakeKey addr)).val.Sequence
          else intAdd (loadAccount cdc store (a.MakeKey addr)).val.Sequence 1 } := by
    rw [hval]
    rw [hacct]
  rw [hstore, hrec]
  exact ⟨rfl, GetAccount_after_set cdc hrt hz a store addr _⟩

theorem read_after_write_witness :
    (coinAccountant.GetAccount sampleCodec
      (coinAccountant.ChangeCoins sampleCodec emptyStore alice [⟨"atom", 100⟩] 0).store
      alice).val = acct100 := by
  have h := (read_after_write sampleCodec sampleCodec_roundTrips
    (emptyOnlyForZero_of_nonEmpty sampleCodec sampleCodec_nonEmpty)
    coinAccountant emptyStore alice [⟨"atom", 100⟩] 0 (by decide)).2.2
  rw [h]
  decide

/-! ## The balance returned on failure -/

/-- C10. Balance returned on failure: when `ChangeCoins` (equivalently
`CheckCoins`) fails, the balance each returns with the error is the current
balance, the one `GetAccount` returns for the address on the store before the
call. -/
theorem failure_returns_current_balance (cdc : Codec) (a : Accountant) (store : KVStore)
    (addr : Actor) (coins : Coins) (seq : Int)
    (herr : (a.ChangeCoins cdc store addr coins seq).err ≠ none) :
    (a.CheckCoins cdc store addr coins seq).err ≠ none ∧
    (a.ChangeCoins cdc store addr coins seq).val = (a.GetAccount cdc store addr).val.Coins ∧
    (a.CheckCoins cdc store addr coins seq).val = (a.GetAccount cdc store addr).val.Coins := by
  rw [ChangeCoins_err] at herr
  have hc := updateCoins_failed_coins cdc a store addr coins seq herr
  have hget : (a.GetAccount cdc store addr).val = (loadAccount cdc store (a.MakeKey addr)).val :=
    rfl
  refine ⟨herr, ?_, ?_⟩
  · rw [ChangeCoins_failed cdc a store addr coins seq herr, hget]
    exact hc
  · rw [hget]
    exact hc

theorem failure_returns_current_balance_witness :
    (coinAccountant.ChangeCoins sampleCodec store70 alice [⟨"atom", -1000⟩] 2).err
      = some CoinError.InsufficientFunds ∧
    (coinAccountant.ChangeCoins sampleCodec store70 alice [⟨"atom", -1000⟩] 2).val
      = (coinAccountant.GetAccount sampleCodec store70 alice).val.Coins ∧
    (coinAccountant.GetAccount sampleCodec store70 alice).val.Coins = [⟨"atom", 70⟩] := by
  have hchg := ChangeCoins_debit_insufficient sampleCodec coinAccountant store70 alice
    [⟨"atom", -1000⟩] 2 acct70 load70 (by decide) (by decide) (by decide)
  have herr : (coinAccountant.ChangeCoins sampleCodec store70 alice [⟨"atom", -1000⟩] 2).err
      ≠ none := by
    rw [hchg]
    simp
  refine ⟨by rw [hchg], (failure_returns_current_balance sampleCodec coinAccountant store70 alice
    [⟨"atom", -1000⟩] 2 herr).2.1, ?_⟩
  rw [GetAccount_of_load _ _ _ _ _ load70]
  rfl

/-! ## Debits on an address without a record, and reads -/

/-- C11. Debit on a non-existent account: when the store has no bytes at the key
of the address and the delta is not a credit (it is empty, or has an amount
`≤ 0`, all-zero deltas included), `CheckCoins` and `ChangeCoins` fail with
`NoAccount` for every claimed sequence, and the store is left as it was, still
without bytes at that key. -/
theorem debit_without_account (cdc : Codec) (a : Accountant) (store : KVStore) (addr : Actor)
    (coins : Coins) (seq : Int)
    (habs : store (a.MakeKey addr) = [])
    (hdebit : coins = [] ∨ ∃ c ∈ coins, c.Amount ≤ 0) :
    (a.CheckCoins cdc store addr coins seq).err = some CoinError.NoAccount ∧
    (a.ChangeCoins cdc store addr coins seq).err = some CoinError.NoAccount ∧
    (a.CheckCoins cdc store addr coins seq).store = store ∧
    (a.ChangeCoins cdc store addr coins seq).store = store ∧
    (a.ChangeCoins cdc store addr coins seq).store (a.MakeKey addr) = [] := by
  have hpos : IsPositive coins = false := (IsPositive_eq_false_iff coins).mpr hdebit
  have hl := loadAccount_absent cdc store (a.MakeKey addr) habs
  have hupd : a.updateCoins cdc store addr coins seq =
      { val := zeroAccount, err := some CoinError.NoAccount, store := store } := by
    unfold Accountant.updateCoins
    rw [hl]
    simp [hpos, IsNoAccountErr]
  have hne : (a.updateCoins cdc store addr coins seq).err ≠ none := by
    rw [hupd]; simp
  have hchg := ChangeCoins_failed cdc a store addr coins seq hne
  refine ⟨?_, ?_, ?_, ?_, ?_⟩
  · rw [CheckCoins_err, hupd]
  · rw [ChangeCoins_err, hupd]
  · unfold Accountant.CheckCoins
    exact updateCoins_store cdc a store addr coins seq
  · rw [hchg]
  · rw [hchg]
    exact habs

theorem debit_without_account_witness :
    (coinAccountant.CheckCoins sampleCodec emptyStore alice [⟨"atom", 0⟩] 1).err
      = some CoinError.NoAccount ∧
    (coinAccountant.ChangeCoins sampleCodec emptyStore alice [⟨"atom", 0⟩] 1).err
      = some CoinError.NoAccount ∧
    (coinAccountant.CheckCoins sampleCodec emptyStore alice [⟨"atom", 0⟩] 1).store
      = emptyStore ∧
    (coinAccountant.ChangeCoins sampleCodec emptyStore alice [⟨"atom", 0⟩] 1).store
      = emptyStore ∧
    (coinAccountant.ChangeCoins sampleCodec emptyStore alice [⟨"atom", 0⟩] 1).store
      (coinAccountant.MakeKey alice) = [] :=
  debit_without_account sampleCodec coinAccountant emptyStore alice [⟨"atom", 0⟩] 1 rfl
    (Or.inr ⟨⟨"atom", 0⟩, by simp, by decide⟩)

/-- C12. `GetAccount` fails exactly when the bytes stored at the derived key are
non-empty and do not decode, and the error is then `Internal`; with no stored
bytes it returns the zero-value record and no error, so it never returns
`NoAccount`; when the bytes decode it returns the decoded record and no
error. -/
theorem GetAccount_result (cdc : Codec) (a : Accountant) (store : KVStore) (addr : Actor) :
    ((a.GetAccount cdc store addr).err ≠ none ↔
      (store (a.MakeKey addr) ≠ [] ∧
        (cdc.ReadBinaryBytes (store (a.MakeKey addr))).2 = false)) ∧
    ((a.GetAccount cdc store addr).err ≠ none →
      ∃ msg, (a.GetAccount cdc store addr).err = some (CoinError.Internal msg)) ∧
    (store (a.MakeKey addr) = [] →
      (a.GetAccount cdc store addr).val = zeroAccount ∧
      (a.GetAccount cdc store addr).err = none) ∧
    (a.GetAccount cdc store addr).err ≠ some CoinError.NoAccount ∧
    (∀ acct : Account, store (a.MakeKey addr) ≠ [] →
      cdc.ReadBinaryBytes (store (a.MakeKey addr)) = (acct, true) →
      (a.GetAccount cdc store addr).val = acct ∧ (a.GetAccount cdc store addr).err = none) ∧
    (a.GetAccount cdc store addr).store = store := by
  by_cases habs : store (a.MakeKey addr) = []
  · have hl := loadAccount_absent cdc store (a.MakeKey addr) habs
    unfold Accountant.GetAccount
    rw [hl]
    simp [IsNoAccountErr, habs]
  · rcases hdec : cdc.ReadBinaryBytes (store (a.MakeKey addr)) with ⟨acct, ok⟩
    cases ok
    · have hl : loadAccount cdc store (a.MakeKey addr) =
          { val := acct
            err := some (CoinError.Internal ("Error reading account " ++ hexUpper (a.MakeKey addr)))
            store := store } := by
        simp [loadAccount, KVStore.Get, habs, hdec]
      unfold Accountant.GetAccount
      rw [hl]
      simp [IsNoAccountErr, habs]
    · have hl := loadAccount_decoded cdc store (a.MakeKey addr) acct habs hdec
      unfold Accountant.GetAccount
      rw [hl]
      simp [IsNoAccountErr, habs]

/-! ## Denominations of the result, stored balances, keys and frames -/

theorem denoms_Plus (a b : Coins) : (Plus a b).map Coin.Denom = denoms a b := by
  unfold Plus
  rw [List.map_map]
  exact List.map_id _

theorem MakeKey_eq (a : Accountant) (addr : Actor) : a.MakeKey addr = a.Prefix ++ addr.Bytes := by
  unfold Accountant.MakeKey
  simp only
  split_ifs with h
  · rfl
  · have h0 : a.Prefix = [] := List.eq_nil_of_length_eq_zero (by omega)
    rw [h0]
    rfl

theorem MakeKey_injective (a : Accountant) (addr addr2 : Actor)
    (h : a.MakeKey addr2 = a.MakeKey addr) : addr2.Bytes = addr.Bytes := by
  rw [MakeKey_eq, MakeKey_eq] at h
  exact List.append_cancel_left h

theorem ChangeCoins_store_cases (cdc : Codec) (a : Accountant) (store : KVStore) (addr : Actor)
    (coins : Coins) (seq : Int) :
    (a.ChangeCoins cdc store addr coins seq).store = store ∨
    ((a.ChangeCoins cdc store addr coins seq).err = none ∧
      (a.ChangeCoins cdc store addr coins seq).store =
        store.Set (a.MakeKey addr) (cdc.BinaryBytes (a.updateCoins cdc store addr coins seq).val)) := by
  by_cases h : (a.ChangeCoins cdc store addr coins seq).err = none
  · exact Or.inr ⟨h, (ChangeCoins_ok cdc a store addr coins seq h).2.2⟩
  · left
    rw [ChangeCoins_err] at h
    rw [ChangeCoins_failed cdc a store addr coins seq h]

theorem ChangeCoins_store_other (cdc : Codec) (a : Accountant) (store : KVStore) (addr : Actor)
    (coins : Coins) (seq : Int) (key : Bytes) (hk : key ≠ a.MakeKey addr) :
    (a.ChangeCoins cdc store addr coins seq).store key = store key := by
  rcases ChangeCoins_store_cases cdc a store addr coins seq with h | ⟨-, h⟩
  · rw [h]
  · rw [h]
    simp [KVStore.Set, hk]

theorem loadAccount_congr (cdc : Codec) (s1 s2 : KVStore) (key : Bytes) (h : s1 key = s2 key) :
    (loadAccount cdc s1 key).val = (loadAccount cdc s2 key).val ∧
    (loadAccount cdc s1 key).err = (loadAccount cdc s2 key).err := by
  unfold loadAccount KVStore.Get
  simp only [h]
  split_ifs
  · exact ⟨rfl, rfl⟩
  · split <;> exact ⟨rfl, rfl⟩

/-- C14. Multi-denomination result keeps every entry: after a successful update
the balance returned is `current.Coins.Plus(delta)`, and every denomination
that appears in the current balance or in the delta appears in it, also when
its resulting amount is zero. -/
theorem result_keeps_denominations (cdc : Codec) (a : Accountant) (store : KVStore)
    (addr : Actor) (coins : Coins) (seq : Int)
    (hok : (a.ChangeCoins cdc store addr coins seq).err = none) :
    (a.ChangeCoins cdc store addr coins seq).val
      = Plus (loadAccount cdc store (a.MakeKey addr)).val.Coins coins ∧
    (a.CheckCoins cdc store addr coins seq).val = (a.ChangeCoins cdc store addr coins seq).val ∧
    ∀ d : String,
      (d ∈ (loadAccount cdc store (a.MakeKey addr)).val.Coins.map Coin.Denom ∨
        d ∈ coins.map Coin.Denom) →
      d ∈ (a.ChangeCoins cdc store addr coins seq).val.map Coin.Denom := by
  obtain ⟨hupd, hval, -⟩ := ChangeCoins_ok cdc a store addr coins seq hok
  obtain ⟨hacct, -, -⟩ := updateCoins_ok cdc a store addr coins seq hupd
  have hv : (a.ChangeCoins cdc store addr coins seq).val
      = Plus (loadAccount cdc store (a.MakeKey addr)).val.Coins coins := by
    rw [hval, hacct]
  refine ⟨hv, ?_, ?_⟩
  · rw [hval]
    rfl
  · intro d hd
    rw [hv, denoms_Plus]
    exact (mem_denoms _ _ d).mpr hd

theorem result_keeps_denominations_witness :
    (coinAccountant.ChangeCoins sampleCodec store70 alice [⟨"photon", 5⟩, ⟨"atom", -70⟩] 2).err
      = none ∧
    (coinAccountant.ChangeCoins sampleCodec store70 alice [⟨"photon", 5⟩, ⟨"atom", -70⟩] 2).val
      = [⟨"atom", 0⟩, ⟨"photon", 5⟩] ∧
    "atom" ∈ (coinAccountant.ChangeCoins sampleCodec store70 alice
      [⟨"photon", 5⟩, ⟨"atom", -70⟩] 2).val.map Coin.Denom := by
  have hok : (coinAccountant.ChangeCoins sampleCodec store70 alice
      [⟨"photon", 5⟩, ⟨"atom", -70⟩] 2).err = none := by
    rw [ChangeCoins_debit_ok sampleCodec coinAccountant store70 alice
      [⟨"photon", 5⟩, ⟨"atom", -70⟩] 2 acct70 load70 (by decide) (by decide) (by decide)]
  have h := result_keeps_denominations sampleCodec coinAccountant store70 alice
    [⟨"photon", 5⟩, ⟨"atom", -70⟩] 2 hok
  refine ⟨hok, ?_, h.2.2 "atom" (Or.inr (by decide))⟩
  rw [h.1, load70]
  decide

theorem NonnegativeRecords_step (cdc : Codec) (hrt : cdc.RoundTrips) (store : KVStore)
    (a : Accountant) (addr : Actor) (coins : Coins) (seq : Int)
    (hinv : NonnegativeRecords cdc store) :
    NonnegativeRecords cdc (a.ChangeCoins cdc store addr coins seq).store := by
  rcases ChangeCoins_store_cases cdc a store addr coins seq with h | ⟨hok, h⟩
  · rw [h]
    exact hinv
  · obtain ⟨hupd, -, -⟩ := ChangeCoins_ok cdc a store addr coins seq hok
    obtain ⟨hacct, hfunds, -⟩ := updateCoins_ok cdc a store addr coins seq hupd
    rw [h]
    intro key acct hne hdec
    by_cases hk : key = a.MakeKey addr
    · subst hk
      simp only [KVStore.Set, if_true] at hdec
      rw [hrt] at hdec
      have hrec : acct = (a.updateCoins cdc store addr coins seq).val :=
        (Prod.mk.inj hdec).1.symm
      rw [hrec, hacct]
      exact (IsNonnegative_eq_true_iff _).mp hfunds
    · simp only [KVStore.Set, if_neg hk] at hne hdec
      exact hinv key acct hne hdec

/-- C15. Stored balances are never negative: with a codec that round-trips,
when every decodable record of the store has only amounts `≥ 0`, so has every
decodable record of the store left by any `ChangeCoins` call; hence in every
store reachable from the empty store by `ChangeCoins` calls no decodable record
has a negative amount. -/
theorem stored_balances_nonnegative (cdc : Codec) (hrt : cdc.RoundTrips) :
    (∀ (store : KVStore) (a : Accountant) (addr : Actor) (coins : Coins) (seq : Int),
      NonnegativeRecords cdc store →
      NonnegativeRecords cdc (a.ChangeCoins cdc store addr coins seq).store) ∧
    NonnegativeRecords cdc emptyStore ∧
    (∀ store : KVStore, Reachable cdc store → NonnegativeRecords cdc store) := by
  have hempty : NonnegativeRecords cdc emptyStore := by
    intro key acct hne
    exact absurd rfl hne
  refine ⟨fun store a addr coins seq => NonnegativeRecords_step cdc hrt store a addr coins seq,
    hempty, ?_⟩
  intro store hr
  induction hr with
  | empty => exact hempty
  | step s a addr coins seq _ ih => exact NonnegativeRecords_step cdc hrt s a addr coins seq ih

theorem stored_balances_nonnegative_witness :
    NonnegativeRecords sampleCodec
      (coinAccountant.ChangeCoins sampleCodec
        (coinAccountant.ChangeCoins sampleCodec emptyStore alice [⟨"atom", 100⟩] 0).store
        alice [⟨"atom", -30⟩] 1).store :=
  (stored_balances_nonnegative sampleCodec sampleCodec_roundTrips).2.2 _
    (Reachable.step _ coinAccountant alice [⟨"atom", -30⟩] 1
      (Reachable.step _ coinAccountant alice [⟨"atom", 100⟩] 0 Reachable.empty))

theorem stringBytes_append (s t : String) :
    stringBytes (s ++ t) = stringBytes s ++ stringBytes t := by
  simp [stringBytes, String.data_append, List.flatMap_append]

theorem stringBytes_slash : stringBytes "/" = [47] := by
  decide

/-- C16. Key derivation: `MakeKey(addr)` is `a.Prefix` followed by
`addr.Bytes()` (just `addr.Bytes()` when the prefix is empty), so it depends
only on the prefix and on the address bytes; `NewAccountant(p)` has as prefix the
bytes of `p` followed by `/`, an empty `p` being replaced by `NameCoin`, so
`NewAccountant("")` and `NewAccountant(NameCoin)` derive the same key for every
address. -/
theorem key_derivation (NameCoin p : String) (a a2 : Accountant) (addr addr2 : Actor) :
    a.MakeKey addr = a.Prefix ++ addr.Bytes ∧
    (a.Prefix = [] → a.MakeKey addr = addr.Bytes) ∧
    (a.Prefix = a2.Prefix → addr.Bytes = addr2.Bytes → a.MakeKey addr = a2.MakeKey addr2) ∧
    (NewAccountant NameCoin p).Prefix
      = stringBytes (if p = "" then NameCoin else p) ++ [47] ∧
    (NewAccountant NameCoin "").Prefix = stringBytes NameCoin ++ [47] ∧
    (NewAccountant NameCoin "").MakeKey addr = (NewAccountant NameCoin NameCoin).MakeKey addr := by
  have hnew : ∀ q : String, (NewAccountant NameCoin q).Prefix
      = stringBytes (if q = "" then NameCoin else q) ++ [47] := by
    intro q
    unfold NewAccountant
    simp only
    rw [stringBytes_append, stringBytes_slash]
  refine ⟨MakeKey_eq a addr, ?_, ?_, hnew p, ?_, ?_⟩
  · intro h0
    rw [MakeKey_eq, h0]
    rfl
  · intro hp hb
    rw [MakeKey_eq, MakeKey_eq, hp, hb]
  · rw [hnew]
    simp
  · rw [MakeKey_eq, MakeKey_eq, hnew, hnew]
    simp

/-- C20. One account at a time: after `ChangeCoins(store, addr, delta, seq)`,
successful or not, every key other than `MakeKey(addr)` holds what it held
before; hence for every address whose byte serialisation differs from that of
`addr`, `GetAccount` through the same accountant returns the same record and
the same error before and after the call. -/
theorem ChangeCoins_one_account (cdc : Codec) (a : Accountant) (store : KVStore) (addr : Actor)
    (coins : Coins) (seq : Int) :
    (∀ key : Bytes, key ≠ a.MakeKey addr →
      (a.ChangeCoins cdc store addr coins seq).store key = store key) ∧
    (∀ addr2 : Actor, addr2.Bytes ≠ addr.Bytes →
      (a.GetAccount cdc (a.ChangeCoins cdc store addr coins seq).store addr2).val
        = (a.GetAccount cdc store addr2).val ∧
      (a.GetAccount cdc (a.ChangeCoins cdc store addr coins seq).store addr2).err
        = (a.GetAccount cdc store addr2).err) := by
  refine ⟨fun key hk => ChangeCoins_store_other cdc a store addr coins seq key hk, ?_⟩
  intro addr2 hb
  have hk : a.MakeKey addr2 ≠ a.MakeKey addr := fun h => hb (MakeKey_injective a addr addr2 h)
  have hs := ChangeCoins_store_other cdc a store addr coins seq (a.MakeKey addr2) hk
  obtain ⟨hv, he⟩ := loadAccount_congr cdc _ store (a.MakeKey addr2) hs
  unfold Accountant.GetAccount
  simp only
  rw [hv, he]
  exact ⟨rfl, rfl⟩

/-! ## Replays and deltas without value -/

theorem intAdd_one_ne (s : Int) : s ≠ intAdd s 1 := by
  unfold intAdd wrapInt
  norm_num
  omega

theorem ChangeCoins_bad_seq (cdc : Codec) (a : Accountant) (store : KVStore) (addr : Actor)
    (coins : Coins) (seq : Int) (cur : Account)
    (hl : loadAccount cdc store (a.MakeKey addr) = { val := cur, err := none, store := store })
    (hpos : IsPositive coins = false) (hseq : seq ≠ intAdd cur.Sequence 1) :
    a.ChangeCoins cdc store addr coins seq =
      { val := cur.Coins, err := some CoinError.InvalidSequence, store := store } := by
  have hupd : a.updateCoins cdc store addr coins seq =
      { val := cur, err := some CoinError.InvalidSequence, store := store } := by
    unfold Accountant.updateCoins
    rw [hl]
    simp [hpos, hseq, IsNoAccountErr]
  unfold Accountant.ChangeCoins
  rw [hupd]
  simp

theorem load100 :
    loadAccount sampleCodec store100 (coinAccountant.MakeKey alice) =
      { val := acct100, err := none, store := store100 } :=
  load_storeWith coinAccountant alice acct100

/-- C13. No immediate replay: with a codec that round-trips and, as the
contract of the external codec, never encodes a record as the empty byte
string, when `ChangeCoins` succeeds on
a delta that is not a credit, the identical call on the store it left behind
fails with `InvalidSequence` and leaves that store as it is. -/
theorem no_immediate_replay (cdc : Codec) (hrt : cdc.RoundTrips) (hne : cdc.NonEmpty)
    (a : Accountant) (store : KVStore) (addr : Actor) (coins : Coins) (seq : Int)
    (hdebit : coins = [] ∨ ∃ c ∈ coins, c.Amount ≤ 0)
    (hok : (a.ChangeCoins cdc store addr coins seq).err = none) :
    (a.ChangeCoins cdc (a.ChangeCoins cdc store addr coins seq).store addr coins seq).err
      = some CoinError.InvalidSequence ∧
    (a.ChangeCoins cdc (a.ChangeCoins cdc store addr coins seq).store addr coins seq).store
      = (a.ChangeCoins cdc store addr coins seq).store := by
  have hpos : IsPositive coins = false := (IsPositive_eq_false_iff coins).mpr hdebit
  obtain ⟨hupd, -, hstore⟩ := ChangeCoins_ok cdc a store addr coins seq hok
  obtain ⟨hacct, -, hd⟩ := updateCoins_ok cdc a store addr coins seq hupd
  have hseq : (a.updateCoins cdc store addr coins seq).val.Sequence = seq := by
    rw [hacct]
    simp only [hpos]
    exact (hd hpos).1.symm
  have hl := load_set cdc hrt hne store (a.MakeKey addr) (a.updateCoins cdc store addr coins seq).val
  rw [← hstore] at hl
  have hbad : seq ≠ intAdd (a.updateCoins cdc store addr coins seq).val.Sequence 1 := by
    rw [hseq]
    exact intAdd_one_ne seq
  rw [ChangeCoins_bad_seq cdc a _ addr coins seq _ hl hpos hbad]
  exact ⟨rfl, rfl⟩

theorem no_immediate_replay_witness :
    (coinAccountant.ChangeCoins sampleCodec store100 alice [⟨"atom", -30⟩] 1).err = none ∧
    (coinAccountant.ChangeCoins sampleCodec
      (coinAccountant.ChangeCoins sampleCodec store100 alice [⟨"atom", -30⟩] 1).store
      alice [⟨"atom", -30⟩] 1).err = some CoinError.InvalidSequence := by
  have hok : (coinAccountant.ChangeCoins sampleCodec store100 alice [⟨"atom", -30⟩] 1).err
      = none := by
    rw [ChangeCoins_debit_ok sampleCodec coinAccountant store100 alice [⟨"atom", -30⟩] 1 acct100
      load100 (by decide) (by decide) (by decide)]
  exact ⟨hok, (no_immediate_replay sampleCodec sampleCodec_roundTrips sampleCodec_nonEmpty
    coinAccountant store100 alice [⟨"atom", -30⟩] 1
    (Or.inr ⟨⟨"atom", -30⟩, by simp, by decide⟩) hok).1⟩

theorem amountOf_of_all_zero (coins : Coins) (d : String) (hzero : ∀ c ∈ coins, c.Amount = 0) :
    amountOf coins d = 0 := by
  induction coins with
  | nil => rfl
  | cons x xs ih =>
    unfold amountOf
    split_ifs
    · exact hzero x (List.mem_cons_self _ _)
    · exact ih (fun c hc => hzero c (List.mem_cons_of_mem _ hc))

theorem IsPositive_of_all_zero (coins : Coins) (hzero : ∀ c ∈ coins, c.Amount = 0) :
    IsPositive coins = false := by
  rw [IsPositive_eq_false_iff]
  cases coins with
  | nil => exact Or.inl rfl
  | cons x xs =>
    exact Or.inr ⟨x, List.mem_cons_self _ _, le_of_eq (hzero x (List.mem_cons_self _ _))⟩

/-- C18, counterexample. The stored record has the largest `int` as sequence
`n` and no coins; the delta of zero photons, with the smallest `int` as claimed
sequence, which is not `n + 1`, is accepted by `ChangeCoins` instead of failing
with `InvalidSequence`. -/
theorem zero_delta_accepted_at_maxInt :
    (coinAccountant.GetAccount sampleCodec storeMax alice).val = acctMax ∧
    acctMax.Sequence = maxInt ∧ IsInt minInt ∧ minInt ≠ maxInt + 1 ∧
    (∀ c ∈ [({ Denom := "photon", Amount := 0 } : Coin)], c.Amount = 0) ∧
    (coinAccountant.ChangeCoins sampleCodec storeMax alice [⟨"photon", 0⟩] minInt).err = none := by
  have hchg := ChangeCoins_debit_ok sampleCodec coinAccountant storeMax alice [⟨"photon", 0⟩]
    minInt acctMax loadMax (by decide) (by decide) (by decide)
  refine ⟨?_, rfl, by decide, by decide, by simp, by rw [hchg]⟩
  rw [GetAccount_of_load _ _ _ _ _ loadMax]

/-- C18, as amended. Empty or all-zero deltas consume a sequence number: when
the store holds a decodable record with amounts `≥ 0` and sequence `n` and the
delta is empty or all zero, `ChangeCoins` with the claimed sequence `n+1` of the
wrapping `int` arithmetic of the code (`n + 1` itself when `n` is an `int` below
the largest one) succeeds, leaves the amount of every denomination unchanged
and writes that sequence, while with any other claimed sequence it fails with
`InvalidSequence`. -/
theorem zero_delta_consumes_sequence (cdc : Codec) (a : Accountant) (store : KVStore)
    (addr : Actor) (coins : Coins) (acct : Account)
    (hne : store (a.MakeKey addr) ≠ [])
    (hdec : cdc.ReadBinaryBytes (store (a.MakeKey addr)) = (acct, true))
    (hnn : ∀ c ∈ acct.Coins, 0 ≤ c.Amount)
    (hzero : ∀ c ∈ coins, c.Amount = 0) :
    (a.ChangeCoins cdc store addr coins (intAdd acct.Sequence 1)).err = none ∧
    (∀ d : String,
      amountOf (a.ChangeCoins cdc store addr coins (intAdd acct.Sequence 1)).val d
        = amountOf acct.Coins d) ∧
    (a.ChangeCoins cdc store addr coins (intAdd acct.Sequence 1)).store =
      store.Set (a.MakeKey addr) (cdc.BinaryBytes
        { Coins := Plus acct.Coins coins, Sequence := intAdd acct.Sequence 1 }) ∧
    (IsInt acct.Sequence → acct.Sequence < maxInt → intAdd acct.Sequence 1 = acct.Sequence + 1) ∧
    (∀ seq : Int, seq ≠ intAdd acct.Sequence 1 →
      (a.ChangeCoins cdc store addr coins seq).err = some CoinError.InvalidSequence ∧
      (a.ChangeCoins cdc store addr coins seq).store = store) := by
  have hpos := IsPositive_of_all_zero coins hzero
  have hl := loadAccount_decoded cdc store (a.MakeKey addr) acct hne hdec
  have hfunds : IsNonnegative (Plus acct.Coins coins) = true :=
    Plus_nonneg acct.Coins coins hnn (fun c hc => le_of_eq (hzero c hc).symm)
  have hchg := ChangeCoins_debit_ok cdc a store addr coins (intAdd acct.Sequence 1) acct hl hpos
    rfl hfunds
  refine ⟨by rw [hchg], ?_, by rw [hchg], fun hi hlt => intAdd_one_of_lt _ hi hlt, ?_⟩
  · intro d
    rw [hchg]
    simp only
    rw [amountOf_Plus, amountOf_of_all_zero coins d hzero, add_zero]
  · intro seq hseq
    rw [ChangeCoins_bad_seq cdc a store addr coins seq acct hl hpos hseq]
    exact ⟨rfl, rfl⟩

theorem zero_delta_consumes_sequence_witness :
    (coinAccountant.ChangeCoins sampleCodec store70 alice [] (intAdd acct70.Sequence 1)).err
      = none ∧
    (coinAccountant.ChangeCoins sampleCodec store70 alice [] (intAdd acct70.Sequence 1)).store =
      store70.Set (coinAccountant.MakeKey alice) (sampleCodec.BinaryBytes
        { Coins := Plus acct70.Coins [], Sequence := intAdd acct70.Sequence 1 }) ∧
    intAdd acct70.Sequence 1 = 2 ∧
    (coinAccountant.ChangeCoins sampleCodec store70 alice [] 1).err
      = some CoinError.InvalidSequence := by
  have h := zero_delta_consumes_sequence sampleCodec coinAccountant store70 alice [] acct70
    store70_ne store70_decodes (by decide) (by simp)
  exact ⟨h.1, h.2.2.1, by decide, (h.2.2.2.2 1 (by decide)).1⟩

/-! ## Namespaces of distinct prefixes -/

theorem GetAccount_val (cdc : Codec) (a : Accountant) (store : KVStore) (addr : Actor) :
    (a.GetAccount cdc store addr).val = (loadAccount cdc store (a.MakeKey addr)).val :=
  rfl

theorem NewAccountant_prefix (NameCoin p : String) (hp : p ≠ "") :
    (NewAccountant NameCoin p).Prefix = stringBytes p ++ [47] := by
  unfold NewAccountant
  simp only [if_neg hp]
  rw [stringBytes_append, stringBytes_slash]

theorem NewAccountant_keys_ne (NameCoin p q : String) (a b : Actor)
    (hp : p ≠ "") (hq : q ≠ "")
    (hpq : ¬ stringBytes (p ++ "/") <+: stringBytes (q ++ "/"))
    (hqp : ¬ stringBytes (q ++ "/") <+: stringBytes (p ++ "/")) :
    (NewAccountant NameCoin p).MakeKey a ≠ (NewAccountant NameCoin q).MakeKey b := by
  intro h
  rw [MakeKey_eq, MakeKey_eq, NewAccountant_prefix NameCoin p hp,
    NewAccountant_prefix NameCoin q hq] at h
  rw [stringBytes_append, stringBytes_append, stringBytes_slash] at hpq hqp
  rcases List.append_eq_append_iff.mp h with ⟨r, hr, -⟩ | ⟨r, hr, -⟩
  · exact hpq ⟨r, hr.symm⟩
  · exact hqp ⟨r, hr.symm⟩

/-- C17, counterexample. The prefixes `a` and `a/` followed by the bytes 1, 2
are distinct and non-empty, yet the accountant of the first derives for the
address 1, 2, `/`, 0, 0, 0 the key that the accountant of the second derives for
the address 0, 0, 0, and likewise for the addresses 1, 2, `/`, 0, 0 and 0, 0;
and crediting the first address through the first accountant changes the
balance that `GetAccount` returns for the second address through the second
accountant. -/
theorem prefixes_collide :
    "a" ≠ "" ∧ "a/\x01\x02" ≠ "" ∧ "a" ≠ "a/\x01\x02" ∧
    (NewAccountant "coin" "a").MakeKey addrField3
      = (NewAccountant "coin" "a/\x01\x02").MakeKey addrEmpty3 ∧
    (NewAccountant "coin" "a").MakeKey addrField2
      = (NewAccountant "coin" "a/\x01\x02").MakeKey addrEmpty2 ∧
    ((NewAccountant "coin" "a/\x01\x02").GetAccount sampleCodec emptyStore addrEmpty3).val.Coins
      = [] ∧
    ((NewAccountant "coin" "a/\x01\x02").GetAccount sampleCodec
      ((NewAccountant "coin" "a").ChangeCoins sampleCodec emptyStore addrField3
        [⟨"atom", 100⟩] 0).store addrEmpty3).val.Coins = [⟨"atom", 100⟩] ∧
    ((NewAccountant "coin" "a/\x01\x02").GetAccount sampleCodec emptyStore addrEmpty2).val.Coins
      = [] ∧
    ((NewAccountant "coin" "a/\x01\x02").GetAccount sampleCodec
      ((NewAccountant "coin" "a").ChangeCoins sampleCodec emptyStore addrField2
        [⟨"atom", 100⟩] 0).store addrEmpty2).val.Coins = [⟨"atom", 100⟩] := by
  have hk3 : (NewAccountant "coin" "a/\x01\x02").MakeKey addrEmpty3
      = (NewAccountant "coin" "a").MakeKey addrField3 := by decide
  have hk2 : (NewAccountant "coin" "a/\x01\x02").MakeKey addrEmpty2
      = (NewAccountant "coin" "a").MakeKey addrField2 := by decide
  have hok3 : ((NewAccountant "coin" "a").ChangeCoins sampleCodec emptyStore addrField3
      [⟨"atom", 100⟩] 0).err = none := by decide
  have hok2 : ((NewAccountant "coin" "a").ChangeCoins sampleCodec emptyStore addrField2
      [⟨"atom", 100⟩] 0).err = none := by decide
  obtain ⟨-, -, hstore3⟩ :=
    ChangeCoins_ok sampleCodec _ emptyStore addrField3 [⟨"atom", 100⟩] 0 hok3
  obtain ⟨-, -, hstore2⟩ :=
    ChangeCoins_ok sampleCodec _ emptyStore addrField2 [⟨"atom", 100⟩] 0 hok2
  refine ⟨by decide, by decide, by decide, hk3.symm, hk2.symm, by decide, ?_, by decide, ?_⟩
  · rw [GetAccount_val, hk3, hstore3,
      load_set sampleCodec sampleCodec_roundTrips sampleCodec_nonEmpty]
    decide
  · rw [GetAccount_val, hk2, hstore2,
      load_set sampleCodec sampleCodec_roundTrips sampleCodec_nonEmpty]
    decide

/-- C17, as amended. Namespaces of prefixes that do not extend one another never
collide: for two non-empty prefix strings `p` and `q` such that the bytes of
`p/` are not a prefix of the bytes of `q/` nor the bytes of `q/` a prefix of
the bytes of `p/` (so `p` and `q` are distinct), and for all addresses `a` and
`b`, `NewAccountant(p)` and `NewAccountant(q)` derive different keys; so a
`ChangeCoins` through the first accountant changes neither the record nor the
error that `GetAccount` returns through the second. -/
theorem distinct_prefixes_apart (NameCoin p q : String) (a b : Actor)
    (hp : p ≠ "") (hq : q ≠ "")
    (hpq : ¬ stringBytes (p ++ "/") <+: stringBytes (q ++ "/"))
    (hqp : ¬ stringBytes (q ++ "/") <+: stringBytes (p ++ "/")) :
    p ≠ q ∧
    (NewAccountant NameCoin p).MakeKey a ≠ (NewAccountant NameCoin q).MakeKey b ∧
    ∀ (cdc : Codec) (store : KVStore) (coins : Coins) (seq : Int),
      ((NewAccountant NameCoin q).GetAccount cdc
        ((NewAccountant NameCoin p).ChangeCoins cdc store a coins seq).store b).val
        = ((NewAccountant NameCoin q).GetAccount cdc store b).val ∧
      ((NewAccountant NameCoin q).GetAccount cdc
        ((NewAccountant NameCoin p).ChangeCoins cdc store a coins seq).store b).err
        = ((NewAccountant NameCoin q).GetAccount cdc store b).err := by
  have hne := NewAccountant_keys_ne NameCoin p q a b hp hq hpq hqp
  refine ⟨?_, hne, ?_⟩
  · intro h
    apply hpq
    rw [h]
  · intro cdc store coins seq
    have hs := ChangeCoins_store_other cdc (NewAccountant NameCoin p) store a coins seq
      ((NewAccountant NameCoin q).MakeKey b) (fun h => hne h.symm)
    obtain ⟨hv, he⟩ := loadAccount_congr cdc _ store ((NewAccountant NameCoin q).MakeKey b) hs
    unfold Accountant.GetAccount
    simp only
    rw [hv, he]
    exact ⟨rfl, rfl⟩

theorem distinct_prefixes_apart_witness :
    (NewAccountant "coin" "coin").MakeKey addrField3
      ≠ (NewAccountant "coin" "bank").MakeKey addrEmpty3 :=
  (distinct_prefixes_apart "coin" "coin" "bank" addrField3 addrEmpty3 (by decide) (by decide)
    (by decide) (by decide)).2.1

/-! ## Replay protection over a history -/

theorem Actor_ext (a b : Actor) (h : a.Bytes = b.Bytes) : a = b := by
  cases a
  cases b
  simp only at h
  rw [h]

theorem wrapInt_isInt (z : Int) : IsInt (wrapInt z) := by
  unfold IsInt minInt maxInt wrapInt
  norm_num
  omega

theorem accepted_debit_written (cdc : Codec) (a : Accountant) (store : KVStore) (addr : Actor)
    (coins : Coins) (seq : Int) (hpos : IsPositive coins = false)
    (hok : (a.ChangeCoins cdc store addr coins seq).err = none) :
    ∃ rec : Account, rec.Sequence = seq ∧ IsInt seq ∧
      (a.ChangeCoins cdc store addr coins seq).store
        = store.Set (a.MakeKey addr) (cdc.BinaryBytes rec) := by
  obtain ⟨hupd, -, hstore⟩ := ChangeCoins_ok cdc a store addr coins seq hok
  obtain ⟨hacct, -, hd⟩ := updateCoins_ok cdc a store addr coins seq hupd
  refine ⟨(a.updateCoins cdc store addr coins seq).val, ?_, ?_, hstore⟩
  · rw [hacct]
    simp only [hpos]
    exact (hd hpos).1.symm
  · rw [(hd hpos).1]
    exact wrapInt_isInt _

theorem accepted_written (cdc : Codec) (a : Accountant) (store : KVStore) (addr : Actor)
    (coins : Coins) (seq : Int) (cur : Account)
    (hne : store (a.MakeKey addr) ≠ [])
    (hdec : cdc.ReadBinaryBytes (store (a.MakeKey addr)) = (cur, true))
    (hok : (a.ChangeCoins cdc store addr coins seq).err = none) :
    ∃ rec : Account,
      (a.ChangeCoins cdc store addr coins seq).store
        = store.Set (a.MakeKey addr) (cdc.BinaryBytes rec) ∧
      (IsPositive coins = true → rec.Sequence = cur.Sequence) ∧
      (IsPositive coins = false → seq = intAdd cur.Sequence 1) := by
  obtain ⟨hupd, -, hstore⟩ := ChangeCoins_ok cdc a store addr coins seq hok
  obtain ⟨hacct, -, hd⟩ := updateCoins_ok cdc a store addr coins seq hupd
  have hl := loadAccount_decoded cdc store (a.MakeKey addr) cur hne hdec
  rw [hl] at hacct hd
  refine ⟨(a.updateCoins cdc store addr coins seq).val, hstore, ?_, ?_⟩
  · intro hp
    rw [hacct]
    simp [hp]
  · intro hp
    exact (hd hp).1

theorem acceptedDebits_from (cdc : Codec) (hrt : cdc.RoundTrips) (hne : cdc.NonEmpty)
    (a : Accountant) (x : Actor) (calls : List Call) :
    ∀ (store : KVStore) (cur : Account), store (a.MakeKey x) ≠ [] →
      cdc.ReadBinaryBytes (store (a.MakeKey x)) = (cur, true) →
      List.Chain (fun s t => t = intAdd s 1) cur.Sequence (acceptedDebits cdc a x store calls) := by
  induction calls with
  | nil =>
    intro store cur _ _
    exact List.Chain.nil
  | cons c cs ih =>
    intro store cur hs hdec
    unfold acceptedDebits
    by_cases hx : c.addr = x
    · by_cases hok : (a.ChangeCoins cdc store c.addr c.coins c.seq).err = none
      · rw [hx] at hok
        obtain ⟨rec, hstore, hcredit, hdebit⟩ :=
          accepted_written cdc a store x c.coins c.seq cur hs hdec hok
        have hs2 : (a.ChangeCoins cdc store x c.coins c.seq).store (a.MakeKey x) ≠ [] := by
          rw [hstore]
          simp only [KVStore.Set, if_true]
          exact hne rec
        have hdec2 : cdc.ReadBinaryBytes
            ((a.ChangeCoins cdc store x c.coins c.seq).store (a.MakeKey x)) = (rec, true) := by
          rw [hstore]
          simp only [KVStore.Set, if_true]
          exact hrt rec
        cases hpos : IsPositive c.coins
        · obtain ⟨rec2, hseq2, -, hstore2⟩ :=
            accepted_debit_written cdc a store x c.coins c.seq hpos hok
          have hdec3 : cdc.ReadBinaryBytes
              ((a.ChangeCoins cdc store x c.coins c.seq).store (a.MakeKey x)) = (rec2, true) := by
            rw [hstore2]
            simp only [KVStore.Set, if_true]
            exact hrt rec2
          have hstep := ih _ rec2 hs2 hdec3
          rw [hseq2] at hstep
          rw [hx, if_pos ⟨rfl, rfl, hok⟩]
          exact List.Chain.cons (hdebit hpos) hstep
        · have hstep := ih _ rec hs2 hdec2
          rw [hcredit hpos] at hstep
          rw [hx, if_neg (by simp)]
          exact hstep
      · rw [if_neg (fun h => hok h.2.2)]
        rw [ChangeCoins_err] at hok
        rw [ChangeCoins_failed cdc a store c.addr c.coins c.seq hok]
        exact ih store cur hs hdec
    · rw [if_neg (fun h => hx h.1)]
      have hk : a.MakeKey x ≠ a.MakeKey c.addr := by
        intro h
        exact hx (Actor_ext c.addr x (MakeKey_injective a c.addr x h).symm)
      have hsame := ChangeCoins_store_other cdc a store c.addr c.coins c.seq (a.MakeKey x) hk
      exact ih _ cur (by rw [hsame]; exact hs) (by rw [hsame]; exact hdec)

theorem acceptedDebits_chain (cdc : Codec) (hrt : cdc.RoundTrips) (hne : cdc.NonEmpty)
    (a : Accountant) (x : Actor) (calls : List Call) :
    ∀ store : KVStore,
      List.Chain' (fun s t => t = intAdd s 1) (acceptedDebits cdc a x store calls) := by
  induction calls with
  | nil =>
    intro store
    exact List.chain'_nil
  | cons c cs ih =>
    intro store
    unfold acceptedDebits
    split_ifs with h
    · obtain ⟨hx, hpos, hok⟩ := h
      obtain ⟨rec, hseq, -, hstore⟩ :=
        accepted_debit_written cdc a store c.addr c.coins c.seq hpos hok
      have hs2 : (a.ChangeCoins cdc store c.addr c.coins c.seq).store (a.MakeKey x) ≠ [] := by
        rw [hstore, hx]
        simp only [KVStore.Set, if_true]
        exact hne rec
      have hdec2 : cdc.ReadBinaryBytes
          ((a.ChangeCoins cdc store c.addr c.coins c.seq).store (a.MakeKey x)) = (rec, true) := by
        rw [hstore, hx]
        simp only [KVStore.Set, if_true]
        exact hrt rec
      have hstep := acceptedDebits_from cdc hrt hne a x cs _ rec hs2 hdec2
      rw [hseq] at hstep
      exact hstep
    · exact ih _

theorem acceptedDebits_isInt (cdc : Codec) (a : Accountant) (x : Actor) (calls : List Call) :
    ∀ store : KVStore, ∀ s ∈ acceptedDebits cdc a x store calls, IsInt s := by
  induction calls with
  | nil =>
    intro store s hs
    simp [acceptedDebits] at hs
  | cons c cs ih =>
    intro store s hs
    unfold acceptedDebits at hs
    split_ifs at hs with h
    · rcases List.mem_cons.mp hs with h1 | h1
      · obtain ⟨-, hpos, hok⟩ := h
        obtain ⟨-, -, hint, -⟩ :=
          accepted_debit_written cdc a store c.addr c.coins c.seq hpos hok
        rw [h1]
        exact hint
      · exact ih _ s h1
    · exact ih _ s hs

theorem acceptedDebits_nil (cdc : Codec) (a : Accountant) (x : Actor) (store : KVStore) :
    acceptedDebits cdc a x store [] = [] :=
  rfl

theorem acceptedDebits_cons (cdc : Codec) (a : Accountant) (x : Actor) (store : KVStore)
    (c : Call) (cs : List Call) :
    acceptedDebits cdc a x store (c :: cs) =
      if c.addr = x ∧ IsPositive c.coins = false ∧
          (a.ChangeCoins cdc store c.addr c.coins c.seq).err = none then
        c.seq :: acceptedDebits cdc a x (a.ChangeCoins cdc store c.addr c.coins c.seq).store cs
      else
        acceptedDebits cdc a x (a.ChangeCoins cdc store c.addr c.coins c.seq).store cs := by
  rw [acceptedDebits]

theorem acceptedDebits_debit_ok (cdc : Codec) (a : Accountant) (x : Actor) (store : KVStore)
    (coins : Coins) (seq : Int) (cs : List Call) (cur : Account)
    (hl : loadAccount cdc store (a.MakeKey x) = { val := cur, err := none, store := store })
    (hpos : IsPositive coins = false) (hseq : seq = intAdd cur.Sequence 1)
    (hfunds : IsNonnegative (Plus cur.Coins coins) = true) :
    acceptedDebits cdc a x store ({ addr := x, coins := coins, seq := seq } :: cs) =
      seq :: acceptedDebits cdc a x
        (store.Set (a.MakeKey x)
          (cdc.BinaryBytes { Coins := Plus cur.Coins coins, Sequence := seq })) cs := by
  rw [acceptedDebits_cons]
  simp only
  rw [ChangeCoins_debit_ok cdc a store x coins seq cur hl hpos hseq hfunds]
  simp [hpos]

theorem loadNearMax :
    loadAccount sampleCodec storeNearMax (coinAccountant.MakeKey alice) =
      { val := acctNearMax, err := none, store := storeNearMax } :=
  load_storeWith coinAccountant alice acctNearMax

/-- C19, counterexample. From a stored sequence one below the largest `int`, the
debits claiming the largest `int` and then the smallest `int` are both accepted
on one address, and the second claimed sequence is not the first plus one: it
is below it. -/
theorem accepted_sequences_wrap :
    sampleCodec.RoundTrips ∧
    acceptedDebits sampleCodec coinAccountant alice storeNearMax
      [{ addr := alice, coins := [], seq := maxInt },
       { addr := alice, coins := [], seq := minInt }] = [maxInt, minInt] ∧
    minInt ≠ maxInt + 1 ∧ minInt < maxInt := by
  refine ⟨sampleCodec_roundTrips, ?_, by decide, by decide⟩
  rw [acceptedDebits_debit_ok sampleCodec coinAccountant alice storeNearMax
    [] maxInt _ acctNearMax loadNearMax (by decide) (by decide) (by decide)]
  rw [acceptedDebits_debit_ok sampleCodec coinAccountant alice _
    [] minInt _ _
    (load_set sampleCodec sampleCodec_roundTrips sampleCodec_nonEmpty _ _ _)
    (by decide) (by decide) (by decide)]
  rw [acceptedDebits_nil]

/-- C19, as amended. Replay protection over a history: with a codec that
round-trips and, as the contract of the external codec, never encodes a record
as the empty byte string, in every
sequence of `ChangeCoins` calls made through one accountant from any store, each
accepted non-credit call on an address claims the sequence of the accepted
non-credit call before it on that address plus one, in the wrapping `int`
arithmetic of the code, and exactly plus one unless that sequence is the largest
`int`; so in a history where no accepted debit on the address claims the largest
`int`, the claimed sequences are strictly increasing and none is accepted
twice. -/
theorem replay_protection (cdc : Codec) (hrt : cdc.RoundTrips) (hne : cdc.NonEmpty)
    (a : Accountant) (x : Actor) (store : KVStore) (calls : List Call) :
    List.Chain' (fun s t => t = intAdd s 1 ∧ (s ≠ maxInt → t = s + 1))
      (acceptedDebits cdc a x store calls) ∧
    ((∀ s ∈ acceptedDebits cdc a x store calls, s ≠ maxInt) →
      List.Pairwise (fun s t => s < t) (acceptedDebits cdc a x store calls) ∧
      (acceptedDebits cdc a x store calls).Nodup) := by
  have hchain := acceptedDebits_chain cdc hrt hne a x calls store
  have hint := acceptedDebits_isInt cdc a x calls store
  have h1 : List.Chain' (fun s t => t = intAdd s 1 ∧ (s ≠ maxInt → t = s + 1))
      (acceptedDebits cdc a x store calls) := by
    rw [List.Chain'.iff_mem] at hchain ⊢
    refine hchain.imp ?_
    rintro s t ⟨hs, ht, hst⟩
    refine ⟨hs, ht, hst, fun hmax => ?_⟩
    rw [hst]
    exact intAdd_one_of_lt s (hint s hs) (lt_of_le_of_ne (hint s hs).2 hmax)
  refine ⟨h1, fun hno => ?_⟩
  have h2 : List.Chain' (fun s t : Int => s < t) (acceptedDebits cdc a x store calls) := by
    rw [List.Chain'.iff_mem] at h1 ⊢
    refine h1.imp ?_
    rintro s t ⟨hs, ht, -, hst⟩
    refine ⟨hs, ht, ?_⟩
    rw [hst (hno s hs)]
    exact lt_add_one s
  have h3 : List.Pairwise (fun s t : Int => s < t) (acceptedDebits cdc a x store calls) :=
    List.chain'_iff_pairwise.mp h2
  exact ⟨h3, h3.imp (fun h => ne_of_lt h)⟩

theorem replay_protection_witness :
    acceptedDebits sampleCodec coinAccountant alice storeZero sampleHistory = [1, 2] ∧
    List.Chain' (fun s t => t = intAdd s 1 ∧ (s ≠ maxInt → t = s + 1))
      (acceptedDebits sampleCodec coinAccountant alice storeZero sampleHistory) :=
  ⟨by decide, And.left (replay_protection sampleCodec sampleCodec_roundTrips sampleCodec_nonEmpty
    coinAccountant alice storeZero sampleHistory)⟩

end CoinStore
